import Mathlib

/-!
Shallow embedding of the `rose_arch` builtin application
(`lib/python/rose/apps/rose_arch.py`) and the `%`-template construction of the
`rose_prune` builtin application (`lib/python/rose/apps/rose_prune.py`).

External collaborators (glob expansion, environment-variable substitution,
`shlex.split`, checksum and compression providers, the shell runner and the
regular-expression engine) are modelled as oracle fields of a `World` record;
the orchestrator, target resolver, target update step and the SQLite-backed
cache (`RoseArchDAO`) are translated function by function from the source.
Strings are manipulated through their character lists so that every operation
is an executable structural recursion.

Python `dict`s keyed by checksum are represented as association lists kept in
strictly ascending key order (`dictInsert`), so that structural equality of the
representation coincides with Python dictionary equality; Python dictionary
iteration order (insertion order) is not observable in any property proved
here beyond multiset contents of command logs and cache rows.
-/

namespace RoseArch

/-! ## Character-list string helpers -/

/-- Split a character list at the first occurrence of `c`; the separator is
dropped.  Mirrors Python `s.split(c, 1)` when it returns two parts. -/
def chSplitFirst (c : Char) : List Char → Option (List Char × List Char)
  | [] => none
  | x :: xs =>
    if x = c then some ([], xs)
    else (chSplitFirst c xs).map (fun p => (x :: p.1, p.2))

/-- Split a character list at the last occurrence of `c`.  Mirrors Python
`s.rsplit(c, 1)` when it returns two parts. -/
def chSplitLast (c : Char) (l : List Char) : Option (List Char × List Char) :=
  match chSplitFirst c l.reverse with
  | none => none
  | some (a, b) => some (b.reverse, a.reverse)

/-- Python `s.startswith("(") and s.endswith(")")` for a possibly short `s`. -/
def chWrapped : List Char → Bool
  | [] => false
  | x :: xs => x = '(' && xs.getLast? = some ')'

/-- Python `s[1:-1]`. -/
def stripWrap (l : List Char) : List Char := (l.drop 1).dropLast

/-- Lexicographic comparison of character lists (Python string `<`). -/
def chLt : List Char → List Char → Bool
  | [], [] => false
  | [], _ :: _ => true
  | _ :: _, [] => false
  | a :: as, b :: bs => if a < b then true else if b < a then false else chLt as bs

/-- Boolean string comparison used where Python compares strings with `<`. -/
def strLtB (a b : String) : Bool := chLt a.data b.data

/-- Python truthiness of an optional string: `None` and `""` are falsy. -/
def truthyO : Option String → Bool
  | none => false
  | some s => !(s == "")

/-- `os.path.join` for the two-argument uses in the source. -/
def osJoin (a b : String) : String :=
  if b.data.head? = some '/' then b
  else if a == "" then b
  else if a.data.getLast? = some '/' then a ++ b
  else a ++ "/" ++ b

/-! ## Python `%`-formatting with a mapping argument

Models the constructs exercised by this repository: `%(key)s` conversions with
optional flag/width characters, `%%` escapes, and the error classes Python
raises for the remaining shapes (`KeyError` for a missing key, `ValueError`
for an incomplete or unsupported format, `TypeError` for numeric conversions
applied to the string values used here, and for a bare conversion consuming
the whole mapping `%s` yields an opaque rendering of the dictionary). -/

inductive FmtErr where
  | keyErr (k : String)
  | valueErr
  | typeErr
  deriving DecidableEq, Repr

/-- Flag, width and precision characters allowed between `%(key)` and the
conversion character. -/
def isFmtFlag (c : Char) : Bool :=
  c.isDigit || c = '.' || c = '-' || c = '+' || c = ' ' || c = '#' || c = '0'

/-- Conversion characters that Python would accept but that raise `TypeError`
for the plain string values this program substitutes. -/
def isNumConv (c : Char) : Bool :=
  c = 'd' || c = 'i' || c = 'f' || c = 'u' || c = 'x' || c = 'X' || c = 'o' ||
  c = 'e' || c = 'E' || c = 'g' || c = 'G' || c = 'c'

/-- Opaque deterministic rendering of a whole mapping, for a bare `%s`. -/
def dictRendering (vs : List (String × String)) : List Char :=
  (String.intercalate ", " (vs.map (fun p => p.1 ++ ": " ++ p.2))).data

/-- One step of `%`-substitution state; recursion is fuelled by the length of
the template, which strictly bounds the number of `%` specifiers. -/
def pyFormatAux (vs : List (String × String)) : Nat → List Char → Except FmtErr (List Char)
  | _, [] => .ok []
  | 0, _ => .error .valueErr
  | fuel + 1, '%' :: rest =>
    match rest with
    | [] => .error .valueErr
    | '%' :: rest' => (pyFormatAux vs fuel rest').map (fun l => '%' :: l)
    | '(' :: rest' =>
      match chSplitFirst ')' rest' with
      | none => .error .valueErr
      | some (key, rest'') =>
        let rest3 := rest''.dropWhile isFmtFlag
        match rest3 with
        | [] => .error .valueErr
        | c :: rest4 =>
          if c = 's' then
            match vs.lookup (⟨key⟩ : String) with
            | none => .error (.keyErr ⟨key⟩)
            | some v => (pyFormatAux vs fuel rest4).map (fun l => v.data ++ l)
          else if c = 'r' then
            match vs.lookup (⟨key⟩ : String) with
            | none => .error (.keyErr ⟨key⟩)
            | some v => (pyFormatAux vs fuel rest4).map (fun l => '\'' :: v.data ++ '\'' :: l)
          else if isNumConv c then
            match vs.lookup (⟨key⟩ : String) with
            | none => .error (.keyErr ⟨key⟩)
            | some _ => .error .typeErr
          else .error .valueErr
    | cs =>
      let rest3 := cs.dropWhile isFmtFlag
      match rest3 with
      | [] => .error .valueErr
      | c :: rest4 =>
        if c = 's' then
          (pyFormatAux vs fuel rest4).map (fun l => dictRendering vs ++ l)
        else if isNumConv c || c = 'r' then .error .typeErr
        else .error .valueErr
  | fuel + 1, c :: rest => (pyFormatAux vs fuel rest).map (fun l => c :: l)

/-- Python `template % mapping` for a string template and a string-valued
mapping, returning the formatted string or the raised error class. -/
def pyFormat (template : String) (vs : List (String × String)) : Except FmtErr String :=
  (pyFormatAux vs template.data.length template.data).map (fun l => ⟨l⟩)

/-! ## Data model (`RoseArchSource`, `RoseArchTarget`, the DAO tables) -/

/-- `RoseArchTarget` statuses: `ST_OLD "="`, `ST_NEW "+"`, `ST_BAD "!"`,
`ST_NULL "0"`. -/
inductive ArchStatus where
  | old
  | new
  | bad
  | null
  deriving DecidableEq, Repr

/-- `RoseArchSource.__init__`: `name`/`path` start equal to `orig_name`/
`orig_path`. -/
structure RoseArchSource where
  checksum : String
  origName : String
  origPath : Option String
  name : String
  path : Option String
  deriving DecidableEq, Repr

/-- `RoseArchSource(checksum, orig_name, orig_path)`. -/
def mkRoseArchSource (checksum origName : String) (origPath : Option String) : RoseArchSource :=
  { checksum := checksum, origName := origName, origPath := origPath,
    name := origName, path := origPath }

/-- `RoseArchSource.__eq__`: checksum and (possibly renamed) name. -/
def beqSource (a b : RoseArchSource) : Bool :=
  a.checksum == b.checksum && a.name == b.name

/-- An archive target; `sources` is the checksum-keyed dictionary, kept in
ascending checksum order. -/
structure RoseArchTarget where
  name : String
  compressScheme : Option String
  commandFormat : Option String
  commandRc : Int
  sources : List (String × RoseArchSource)
  sourceEditFormat : Option String
  status : Option ArchStatus
  workSourcePath : Option String
  deriving DecidableEq, Repr

/-- `RoseArchTarget.__init__(name)`. -/
def mkRoseArchTarget (name : String) : RoseArchTarget :=
  { name := name, compressScheme := none, commandFormat := none, commandRc := 0,
    sources := [], sourceEditFormat := none, status := none, workSourcePath := none }

/-- Ordered insertion into the checksum-keyed source dictionary; an existing
key is overwritten, as `target.sources[checksum] = ...` does. -/
def dictInsert (k : String) (v : RoseArchSource) :
    List (String × RoseArchSource) → List (String × RoseArchSource)
  | [] => [(k, v)]
  | (k', v') :: rest =>
    if k = k' then (k, v) :: rest
    else if strLtB k k' then (k, v) :: (k', v') :: rest
    else (k', v') :: dictInsert k v rest

/-- Python dictionary equality of two canonically ordered source maps, with
values compared by `RoseArchSource.__eq__`. -/
def beqSources : List (String × RoseArchSource) → List (String × RoseArchSource) → Bool
  | [], [] => true
  | (k, v) :: r, (k', v') :: r' => k == k' && beqSource v v' && beqSources r r'
  | _, _ => false

/-- `RoseArchTarget.__eq__`: name, compress_scheme, command_format,
command_rc, sources, source_edit_format. -/
def beqTarget (a b : RoseArchTarget) : Bool :=
  a.name == b.name && a.compressScheme == b.compressScheme &&
  a.commandFormat == b.commandFormat && a.commandRc == b.commandRc &&
  beqSources a.sources b.sources && a.sourceEditFormat == b.sourceEditFormat

/-- One row of the `targets` table. -/
structure TargetRow where
  name : String
  compressScheme : Option String
  commandFormat : Option String
  commandRc : Int
  sourceEditFormat : Option String
  deriving DecidableEq, Repr

/-- One row of the `sources` table. -/
structure SourceRow where
  targetName : String
  sourceName : String
  checksum : String
  deriving DecidableEq, Repr

/-- The two tables of `.rose-arch.db`; rows are kept in insertion order, as
SQLite returns them for the queries the DAO issues. -/
structure DB where
  targets : List TargetRow
  sources : List SourceRow
  deriving DecidableEq, Repr

/-- A freshly created database file. -/
def emptyDB : DB := { targets := [], sources := [] }

/-- `RoseArchDAO.delete`: remove both tables' rows for one target name. -/
def dbDelete (db : DB) (n : String) : DB :=
  { targets := db.targets.filter (fun r => !(r.name == n)),
    sources := db.sources.filter (fun r => !(r.targetName == n)) }

/-- `RoseArchDAO.delete_all(filter_targets)`: with an empty filter every row
is deleted; otherwise rows whose name differs from every filter name go. -/
def dbDeleteAll (db : DB) (names : List String) : DB :=
  if names.isEmpty then emptyDB
  else
    { targets := db.targets.filter (fun r => names.any (fun n => r.name == n)),
      sources := db.sources.filter (fun r => names.any (fun n => r.targetName == n)) }

/-- `RoseArchDAO.insert`: fails (IntegrityError, transaction rolled back) on a
`target_name` primary-key conflict or a `(target_name, checksum)` uniqueness
conflict with existing source rows. -/
def dbInsert (db : DB) (t : RoseArchTarget) : Except Unit DB :=
  if db.targets.any (fun r => r.name == t.name) then .error ()
  else if (t.sources.map (fun p => (⟨t.name, p.2.name, p.1⟩ : SourceRow))).any (fun r =>
      db.sources.any (fun r' => r'.targetName == r.targetName && r'.checksum == r.checksum)) then
    .error ()
  else
    .ok { targets := db.targets ++
            [⟨t.name, t.compressScheme, t.commandFormat, t.commandRc, t.sourceEditFormat⟩],
          sources := db.sources ++ t.sources.map (fun p => ⟨t.name, p.2.name, p.1⟩) }

/-- `RoseArchDAO.select`: rebuild the cached target (sources carry name and
checksum only). -/
def selectDB (db : DB) (n : String) : Option RoseArchTarget :=
  match db.targets.find? (fun r => r.name == n) with
  | none => none
  | some row =>
    let srcRows := db.sources.filter (fun r => r.targetName == n)
    some { mkRoseArchTarget n with
           compressScheme := row.compressScheme,
           commandFormat := row.commandFormat,
           commandRc := row.commandRc,
           sourceEditFormat := row.sourceEditFormat,
           sources := srcRows.foldl
             (fun acc r => dictInsert r.checksum (mkRoseArchSource r.checksum r.sourceName none) acc)
             [] }

/-- `RoseArchDAO.update_command_rc`. -/
def dbUpdateRc (db : DB) (t : RoseArchTarget) : DB :=
  { db with
    targets := db.targets.map
      (fun r => if r.name == t.name then { r with commandRc := t.commandRc } else r) }

/-! ## External collaborators and configuration input -/

/-- The external collaborators consumed by the application, as deterministic
oracles: `glob`, `rose.env.env_var_process` (`none` models
`UnboundEnvironmentVariableError`), `shlex.split`, `get_checksum_func` scheme
validation, `get_checksum` (triples `(rel_path, checksum)`, a `none` checksum
marking a directory entry), the compression-scheme manager, the regex engine
for `rename-parser`, `ROSE_TASK_CYCLE_TIME` / `ROSE_SUITE_NAME`, the shell
runner (`(return code, stdout, stderr)`), shell quoting, and the compression
handler's resulting consolidated `work_source_path`. -/
structure World where
  glob : String → List String
  envsubst : String → Option String
  shlexSplit : String → List String
  checksumSchemeOk : Option String → Bool
  getChecksum : Option String → String → List (String × Option String)
  hasCompressHandler : String → Bool
  regexOk : String → Bool
  regexMatch : String → String → Option (List (String × String))
  taskCycleTime : Option String
  suiteName : Option String
  runCmd : String → Int × String × String
  shellJoin : List String → String
  compressTarget : String → RoseArchTarget → Option String

/-- One configuration section node: its ignored flag and its option
key/value pairs. -/
structure ConfNode where
  isIgnored : Bool
  opts : List (String × String)
  deriving Repr

/-- The application configuration: the top-level `section:suffix` entries and
the run-level `[arch]` option defaults. -/
structure Config where
  entries : List (String × ConfNode)
  archOpts : List (String × String)
  deriving Repr

/-- Commands issued through the process runner: per-source edit commands
(`run_ok`) and the archive command itself (`run`). -/
inductive Cmd where
  | edit (c : String)
  | archive (c : String)
  deriving DecidableEq, Repr

/-- Fatal errors (raised Python exceptions) that abort the whole run. -/
inductive Err where
  | duplicateTarget (key tail : String)
  | configValue (key : String)
  | compulsoryConfig (key : String)
  | archValue (name key : String)
  | uncaughtFormat
  | integrity
  | popen
  deriving DecidableEq, Repr

/-- `RoseArchApp._get_conf`: per-target value, else run-level `[arch]`
default, else the call-site default; a compulsory falsy value raises; a truthy
value undergoes environment-variable substitution. -/
def getConf (w : World) (cfg : Config) (nd : ConfNode) (key : String)
    (compulsory : Bool) (dflt : Option String) : Except Err (Option String) :=
  let v : Option String :=
    match nd.opts.lookup key with
    | some x => some x
    | none =>
      match cfg.archOpts.lookup key with
      | some x => some x
      | none => dflt
  if compulsory && !(truthyO v) then .error (.compulsoryConfig key)
  else if truthyO v then
    match w.envsubst (v.getD "") with
    | none => .error (.configValue key)
    | some v' => .ok (some v')
  else .ok v

/-! ## Target resolver (`RoseArchApp._run_target_setup` and the key handling
in `RoseArchApp._run`) -/

/-- The key handling at the top of `_run`'s loop: skip ignored or unshaped
keys, require the `arch` section head and a nonempty tail, substitute
environment variables in the tail, and strip an optional-marking parenthesis
pair.  Returns `(tail, is_compulsory_target)`. -/
def resolveTail (w : World) (key : String) (nd : ConfNode) :
    Except Err (Option (String × Bool)) :=
  if nd.isIgnored || !(key.data.contains ':') then .ok none
  else
    match chSplitFirst ':' key.data with
    | none => .ok none
    | some (hd, tl) =>
      if !((⟨hd⟩ : String) == "arch") || tl.isEmpty then .ok none
      else
        match w.envsubst ⟨tl⟩ with
        | none => .error (.configValue key)
        | some tlS =>
          if chWrapped tlS.data then .ok (some (⟨stripWrap tlS.data⟩, false))
          else .ok (some (tlS, true))

/-- Parenthesis handling of one `source` token: a wrapped pattern is
stripped and optional; an unwrapped one inherits the target's
compulsoriness (`is_compulsory_source = is_compulsory_target`). -/
def tokOptional (tok : String) (isCompT : Bool) : String × Bool :=
  if chWrapped tok.data then (⟨stripWrap tok.data⟩, false) else (tok, isCompT)

/-- One `(rel_path, checksum)` item of `get_checksum`: directory entries
(`none` checksum) are skipped, others are keyed into the source dictionary. -/
def procChecksumItem (name path : String) (t : RoseArchTarget)
    (pr : String × Option String) : RoseArchTarget :=
  match pr.2 with
  | none => t
  | some ck =>
    if pr.1 == "" then
      { t with sources := dictInsert ck (mkRoseArchSource ck name (some path)) t.sources }
    else
      { t with sources :=
          (dictInsert ck
            (mkRoseArchSource ck (osJoin name pr.1) (some (osJoin path pr.1)))
            t.sources) }

/-- One glob-expanded path: its name drops the `source-prefix`, and its
recursive checksum listing is folded into the source dictionary. -/
def procPath (w : World) (upd : Option String) (spfx : String)
    (t : RoseArchTarget) (path : String) : RoseArchTarget :=
  (w.getChecksum upd path).foldl
    (procChecksumItem ⟨path.data.drop spfx.data.length⟩ path) t

/-- Source-glob processing (one token of the shell-tokenized `source` value):
optional parenthesis stripping, glob expansion with `source-prefix`, the
compulsory-source BAD rule for an empty expansion, and recursive
checksumming into the checksum-keyed source dictionary. -/
def procSourceTok (w : World) (upd : Option String) (spfx : String)
    (isCompT : Bool) (t : RoseArchTarget) (tok : String) : RoseArchTarget :=
  if (w.glob (spfx ++ (tokOptional tok isCompT).1)).isEmpty then
    if (tokOptional tok isCompT).2 then { t with status := some .bad } else t
  else
    (w.glob (spfx ++ (tokOptional tok isCompT).1)).foldl (procPath w upd spfx) t

/-- The zero-source rule of `_run_target_setup` (`if not target.sources:`):
no resolved sources makes a compulsory target BAD and an optional one NULL. -/
def zeroSourceRule (isCompT : Bool) (t : RoseArchTarget) : RoseArchTarget :=
  if t.sources.isEmpty then
    { t with status := some (if isCompT then ArchStatus.bad else ArchStatus.null) }
  else t

/-- The compression-scheme step: an explicit scheme must have a handler (else
status BAD); an absent one may be inferred from the extension of the final
path segment of the target name. -/
def compressStage (w : World) (t : RoseArchTarget) (cmpO : Option String) : RoseArchTarget :=
  let t := { t with compressScheme := cmpO }
  if !(truthyO t.compressScheme) then
    let base : List Char :=
      match chSplitLast '/' t.name.data with
      | none => t.name.data
      | some (_, after) => after
    match chSplitFirst '.' base with
    | none => t
    | some (_, tl) =>
      if w.hasCompressHandler ⟨tl⟩ then { t with compressScheme := some ⟨tl⟩ } else t
  else if !(w.hasCompressHandler (t.compressScheme.getD "")) then
    { t with status := some .bad }
  else t

/-- The substitution mapping for `rename-format`: `cycle` and `name`, with
the capture groups of a matching `rename-parser` overriding both
(`dict_.update(match.groupdict())`). -/
def renameMapping (w : World) (rpO : Option String) (s : RoseArchSource) :
    List (String × String) :=
  (if truthyO rpO then (w.regexMatch (rpO.getD "") s.name).getD [] else []) ++
    [("cycle", w.taskCycleTime.getD "None"), ("name", s.name)]

/-- Rename one source name through `rename-format`; `KeyError` and
`ValueError` are re-raised as fatal `RoseArchValueError`s. -/
def renameOne (w : World) (tName rf : String) (rpO : Option String)
    (s : RoseArchSource) : Except Err RoseArchSource :=
  match pyFormat rf (renameMapping w rpO s) with
  | .ok nm => .ok { s with name := nm }
  | .error (.keyErr _) => .error (.archValue tName "rename-format")
  | .error .valueErr => .error (.archValue tName "rename-format")
  | .error .typeErr => .error .uncaughtFormat

/-- Rename every source in order; the first raised error aborts. -/
def renameFold (w : World) (tName rf : String) (rpO : Option String) :
    List (String × RoseArchSource) → Except Err (List (String × RoseArchSource))
  | [] => .ok []
  | p :: ps =>
    match renameOne w tName rf rpO p.2 with
    | .error e => .error e
    | .ok s' => (renameFold w tName rf rpO ps).map (fun l => (p.1, s') :: l)

/-- The `rename-format` step of target setup. -/
def renameStage (w : World) (cfg : Config) (nd : ConfNode) (t : RoseArchTarget)
    (rfO : Option String) : Except Err RoseArchTarget :=
  if !(truthyO rfO) then .ok t
  else
    match getConf w cfg nd "rename-parser" false none with
    | .error e => .error e
    | .ok rpO =>
      if truthyO rpO && !(w.regexOk (rpO.getD "")) then
        .error (.archValue t.name "rename-parser")
      else
        match renameFold w t.name (rfO.getD "") rpO t.sources with
        | .error e => .error e
        | .ok srcs => .ok { t with sources := srcs }

/-- `RoseArchApp._run_target_setup`: build one target from its configuration
entry.  Expected per-target conditions set status BAD; structurally invalid
configuration raises. -/
def runTargetSetup (w : World) (cfg : Config) (sKeyTail : String) (nd : ConfNode)
    (isCompT : Bool) : Except Err RoseArchTarget :=
  match getConf w cfg nd "target-prefix" false (some "") with
  | .error e => .error e
  | .ok pfx =>
  let t := mkRoseArchTarget (pfx.getD "" ++ sKeyTail)
  match getConf w cfg nd "command-format" true none with
  | .error e => .error e
  | .ok cfO =>
  let t := { t with commandFormat := cfO }
  match
    (match pyFormat (cfO.getD "") [("sources", ""), ("target", "")] with
     | .error (.keyErr _) => Except.ok { t with status := some ArchStatus.bad }
     | .error _ => Except.error Err.uncaughtFormat
     | .ok _ => Except.ok t) with
  | .error e => .error e
  | .ok t =>
  match getConf w cfg nd "source-edit-format" false (some "") with
  | .error e => .error e
  | .ok sefO =>
  let t := { t with sourceEditFormat := sefO }
  match
    (match pyFormat (sefO.getD "") [("in", ""), ("out", "")] with
     | .error (.keyErr _) => Except.ok { t with status := some ArchStatus.bad }
     | .error _ => Except.error Err.uncaughtFormat
     | .ok _ => Except.ok t) with
  | .error e => .error e
  | .ok t =>
  match getConf w cfg nd "update-check" false none with
  | .error e => .error e
  | .ok upd =>
  if !(w.checksumSchemeOk upd) then .error (.archValue t.name "update-check")
  else
  match getConf w cfg nd "source-prefix" false (some "") with
  | .error e => .error e
  | .ok spfx =>
  match getConf w cfg nd "source" true none with
  | .error e => .error e
  | .ok srcStr =>
  let t := (w.shlexSplit (srcStr.getD "")).foldl
    (procSourceTok w upd (spfx.getD "") isCompT) t
  let t := zeroSourceRule isCompT t
  match getConf w cfg nd "compress" false none with
  | .error e => .error e
  | .ok cmpO =>
  let t := compressStage w t cmpO
  match getConf w cfg nd "rename-format" false none with
  | .error e => .error e
  | .ok rfO => renameStage w cfg nd t rfO

/-! ## Orchestrator (`RoseArchApp._run`) -/

/-- The cache comparison of `_run`: on a miss or a difference the cache rows
for the name are purged (`dao.delete`); on a hit the target is marked OLD. -/
def cacheCheck (db : DB) (t : RoseArchTarget) : DB × RoseArchTarget :=
  match selectDB db t.name with
  | none => (dbDelete db t.name, t)
  | some old =>
    if beqTarget old t then (db, { t with status := some .old })
    else (dbDelete db t.name, t)

/-- The database-free part of `_run`'s setup loop: resolved `(tail, target)`
pairs in entry order, with the duplicate-tail check. -/
def resolveList (w : World) (cfg : Config) :
    List (String × ConfNode) → List String → Except Err (List (String × RoseArchTarget))
  | [], _ => .ok []
  | (k, nd) :: es, tails =>
    match resolveTail w k nd with
    | .error e => .error e
    | .ok none => resolveList w cfg es tails
    | .ok (some (tl, isC)) =>
      if tails.contains tl then .error (.duplicateTarget k tl)
      else
        match runTargetSetup w cfg tl nd isC with
        | .error e => .error e
        | .ok t => (resolveList w cfg es (tl :: tails)).map (fun l => (tl, t) :: l)

/-- The cache-threading of the setup loop over already resolved targets. -/
def cacheFold : DB → List RoseArchTarget → DB × List RoseArchTarget
  | db, [] => (db, [])
  | db, t :: ts =>
    let p := cacheCheck db t
    let q := cacheFold p.1 ts
    (q.1, p.2 :: q.2)

/-- The setup loop of `_run`, interleaving resolution, the duplicate check and
the cache comparison; the database value is returned also when an exception
aborts the loop (committed deletions persist). -/
def phase1 (w : World) (cfg : Config) :
    List (String × ConfNode) → DB → List String → DB × Except Err (List RoseArchTarget)
  | [], db, _ => (db, .ok [])
  | (k, nd) :: es, db, tails =>
    match resolveTail w k nd with
    | .error e => (db, .error e)
    | .ok none => phase1 w cfg es db tails
    | .ok (some (tl, isC)) =>
      if tails.contains tl then (db, .error (.duplicateTarget k tl))
      else
        match runTargetSetup w cfg tl nd isC with
        | .error e => (db, .error e)
        | .ok t =>
          let p := cacheCheck db t
          match phase1 w cfg es p.1 (tl :: tails) with
          | (db'', .error e) => (db'', .error e)
          | (db'', .ok ts) => (db'', .ok (p.2 :: ts))

/-! ## Target update (`RoseArchApp._run_target_update`) -/

/-- The temporary staging directory (`mkdtemp`), abstracted to a constant. -/
def workDirName : String := "work"

/-- Stage one source into the work directory: either run the
`source-edit-format` command (its nonzero exit raises `RosePopenError`) or
symlink it into place; the source's working path is rewritten. -/
def stageOne (w : World) (sefO : Option String) (pr : String × RoseArchSource) :
    List Cmd × Except Err (String × RoseArchSource) :=
  let s := pr.2
  let newPath := osJoin workDirName s.name
  if truthyO sefO then
    match pyFormat (sefO.getD "") [("in", s.origPath.getD "None"), ("out", newPath)] with
    | .error _ => ([], .error .uncaughtFormat)
    | .ok c =>
      let r := w.runCmd c
      if r.1 == 0 then ([.edit c], .ok (pr.1, { s with path := some newPath }))
      else ([.edit c], .error .popen)
  else ([], .ok (pr.1, { s with path := some newPath }))

/-- Stage every source, accumulating the issued edit commands; the first
failure aborts with the commands already run. -/
def stageFold (w : World) (sefO : Option String) :
    List (String × RoseArchSource) → List Cmd × Except Err (List (String × RoseArchSource))
  | [] => ([], .ok [])
  | p :: ps =>
    match stageOne w sefO p with
    | (cmds, .error e) => (cmds, .error e)
    | (cmds, .ok p') =>
      match stageFold w sefO ps with
      | (cmds', .error e) => (cmds ++ cmds', .error e)
      | (cmds', .ok ps') => (cmds ++ cmds', .ok (p' :: ps'))

/-- The rename/edit staging step: engaged when any source was renamed or a
source-edit template is configured. -/
def stageSources (w : World) (t : RoseArchTarget) : List Cmd × Except Err RoseArchTarget :=
  let renameRequired := t.sources.any (fun p => !(p.2.name == p.2.origName))
  if renameRequired || truthyO t.sourceEditFormat then
    match stageFold w t.sourceEditFormat t.sources with
    | (cmds, .error e) => (cmds, .error e)
    | (cmds, .ok srcs) => (cmds, .ok { t with sources := srcs })
  else ([], .ok t)

/-- The execution branch of `_run_target_update` for a freshly resolved
target: set the `command_rc` sentinel, insert the provisional cache row, stage
and compress the sources, build and run the archive command, and persist the
final exit code. -/
def execPending (w : World) (db : DB) (t : RoseArchTarget) :
    DB × List Cmd × Except Err RoseArchTarget :=
  let t1 := { t with commandRc := 1 }
  match dbInsert db t1 with
  | .error _ => (db, [], .error .integrity)
  | .ok dbA =>
    let t2 := { t1 with status := some ArchStatus.bad }
    match stageSources w t2 with
    | (cmds, .error e) => (dbA, cmds, .error e)
    | (cmds, .ok t3) =>
      let t4 :=
        if truthyO t3.compressScheme then
          { t3 with workSourcePath := w.compressTarget (t3.compressScheme.getD "") t3 }
        else t3
      let srcPaths :=
        if truthyO t4.workSourcePath then [t4.workSourcePath.getD ""]
        else t4.sources.map (fun pr => pr.2.path.getD "")
      match pyFormat (t4.commandFormat.getD "")
          [("sources", w.shellJoin srcPaths), ("target", w.shellJoin [t4.name])] with
      | .error _ => (dbA, cmds, .error .uncaughtFormat)
      | .ok cmd =>
        let r := w.runCmd cmd
        let t5 := if r.1 == 0 then { t4 with status := some ArchStatus.new } else t4
        let t6 := { t5 with commandRc := r.1 }
        (dbUpdateRc dbA t6, cmds ++ [.archive cmd], .ok t6)

/-- `RoseArchApp._run_target_update`: OLD targets are only reported; BAD and
NULL targets record a boolean exit code and are reported; anything else is
executed. -/
def runTargetUpdate (w : World) (db : DB) (t : RoseArchTarget) :
    DB × List Cmd × Except Err RoseArchTarget :=
  match t.status with
  | some .old => (db, [], .ok t)
  | some .bad => (db, [], .ok { t with commandRc := 1 })
  | some .null => (db, [], .ok { t with commandRc := 0 })
  | _ => execPending w db t

/-- The update loop of `_run` over the name-sorted target list. -/
def updatePhase (w : World) : DB → List RoseArchTarget → DB × List Cmd × Except Err (List RoseArchTarget)
  | db, [] => (db, [], .ok [])
  | db, t :: ts =>
    match runTargetUpdate w db t with
    | (db', cmds, .error e) => (db', cmds, .error e)
    | (db', cmds, .ok t') =>
      match updatePhase w db' ts with
      | (db'', cmds', .error e) => (db'', cmds ++ cmds', .error e)
      | (db'', cmds', .ok ts') => (db'', cmds ++ cmds', .ok (t' :: ts'))

/-- The target-name order used by `targets.sort(key=lambda t: t.name)`. -/
def nameLe (a b : RoseArchTarget) : Prop := strLtB b.name a.name = false

instance : DecidableRel nameLe := fun _ _ => instDecidableEqBool _ _

/-- The entry-key order used by `sorted(config.value.items())`. -/
def keyLe (a b : String × ConfNode) : Prop := strLtB b.1 a.1 = false

instance : DecidableRel keyLe := fun _ _ => instDecidableEqBool _ _

/-- `RoseArchApp._run`: resolve and cache-compare all targets, sort them by
name, purge stale cache rows, update every target, and return the count of
BAD statuses.  The first component is the database state (persisted also when
an exception aborts the run), the second the issued commands. -/
def runArch (w : World) (cfg : Config) (db : DB) :
    DB × List Cmd × Except Err (List RoseArchTarget × Nat) :=
  let entries := List.insertionSort keyLe cfg.entries
  match phase1 w cfg entries db [] with
  | (db1, .error e) => (db1, [], .error e)
  | (db1, .ok ts) =>
    let sorted := List.insertionSort nameLe ts
    let db2 := dbDeleteAll db1 (sorted.map (fun t => t.name))
    match updatePhase w db2 sorted with
    | (db3, cmds, .error e) => (db3, cmds, .error e)
    | (db3, cmds, .ok fts) =>
      (db3, cmds, .ok (fts, (fts.map (fun t => t.status)).count (some .bad)))

/-- `RoseArchApp.run`: the DAO is constructed (creating the database file if
absent) before `ROSE_SUITE_NAME` is consulted; an unset or empty suite name
returns `None` without running.  The first component is the database file
content after the call (`some` because the DAO constructor created it). -/
def appRun (w : World) (cfg : Config) (fsDb : Option DB) :
    Option DB × List Cmd × Except Err (Option Nat) :=
  let db0 := match fsDb with
    | some d => d
    | none => emptyDB
  if !(truthyO w.suiteName) then (some db0, [], .ok none)
  else
    match runArch w cfg db0 with
    | (db', cmds, .error e) => (some db', cmds, .error e)
    | (db', cmds, .ok p) => (some db', cmds, .ok (some p.2))

/-- Decidable equality of fallible results, for concrete evaluation. -/
instance {ε α : Type} [DecidableEq ε] [DecidableEq α] : DecidableEq (Except ε α) := fun a b =>
  match a, b with
  | .error e, .error e' =>
    if h : e = e' then .isTrue (by rw [h]) else .isFalse (fun hx => by cases hx; exact h rfl)
  | .ok x, .ok y =>
    if h : x = y then .isTrue (by rw [h]) else .isFalse (fun hx => by cases hx; exact h rfl)
  | .error _, .ok _ => .isFalse (fun hx => by cases hx)
  | .ok _, .error _ => .isFalse (fun hx => by cases hx)

/-! ## Derived predicates over the embedded state -/

/-- No row of either table mentions the target name `n`. -/
def dbNoName (db : DB) (n : String) : Prop :=
  (∀ r ∈ db.targets, ¬ r.name = n) ∧ (∀ r ∈ db.sources, ¬ r.targetName = n)

/-- Every row of either table carries one of the listed target names. -/
def dbNamesWithin (db : DB) (names : List String) : Prop :=
  (∀ r ∈ db.targets, r.name ∈ names) ∧ (∀ r ∈ db.sources, r.targetName ∈ names)

/-- The canonical-representation invariant: keys strictly ascending. -/
def srcKeysSorted (l : List (String × RoseArchSource)) : Prop :=
  (l.map (fun p => p.1)).Pairwise (fun a b => strLtB a b = true)

/-- Keys of the source dictionary are the checksums of their values. -/
def keysChecksums (l : List (String × RoseArchSource)) : Prop :=
  ∀ p ∈ l, p.2.checksum = p.1

/-- The target reconstructed by `RoseArchDAO.select` from the rows that
`RoseArchDAO.insert` writes for `t`. -/
def cachedOf (t : RoseArchTarget) : RoseArchTarget :=
  { name := t.name, compressScheme := t.compressScheme, commandFormat := t.commandFormat,
    commandRc := t.commandRc,
    sources := t.sources.map (fun p => (p.1, mkRoseArchSource p.1 p.2.name none)),
    sourceEditFormat := t.sourceEditFormat, status := none, workSourcePath := none }

/-- What `_run_target_setup` guarantees about the target it returns: the
`command_rc` field is still the constructor's `0`, the source dictionary is
canonical with checksum keys, and the status is never OLD or NEW. -/
def freshInv (t : RoseArchTarget) : Prop :=
  t.commandRc = 0 ∧ srcKeysSorted t.sources ∧ keysChecksums t.sources ∧
  ¬ t.status = some ArchStatus.old ∧ ¬ t.status = some ArchStatus.new

/-- The specification's change-detection condition, written from its field
list: at least one of `command_format`, `source_edit_format`,
`compress_scheme`, `command_rc`, the target name, or the source set (compared
by checksum and possibly-renamed name) differs between the cached target `c`
and the freshly resolved target `t`. -/
def targetsDiffer (c t : RoseArchTarget) : Bool :=
  !(c.name == t.name) || !(c.compressScheme == t.compressScheme) ||
  !(c.commandFormat == t.commandFormat) || !(c.commandRc == t.commandRc) ||
  !(beqSources c.sources t.sources) || !(c.sourceEditFormat == t.sourceEditFormat)

/-- The observable outcome of a run: the per-target status list and the
returned BAD count of a completed run, `none` for a raised exception. -/
def statusesOf (r : DB × List Cmd × Except Err (List RoseArchTarget × Nat)) :
    Option (List (Option ArchStatus) × Nat) :=
  match r.2.2 with
  | .ok (ts, n) => some (ts.map (fun t => t.status), n)
  | .error _ => none

/-- The final target names of a completed run, `none` for a raised exception. -/
def namesOf (r : DB × List Cmd × Except Err (List RoseArchTarget × Nat)) :
    Option (List String) :=
  match r.2.2 with
  | .ok (ts, _) => some (ts.map (fun t => t.name))
  | .error _ => none

/-! ## Concrete evaluation fixtures -/

/-- A deterministic world: only `s.txt` and `s2.txt` exist, the checksum of a
path `p` is `ck-p`, no compression handler is registered, environment
substitution is the identity, and every shell command succeeds. -/
def wDemo : World :=
  { glob := fun p =>
      if p == "s.txt" then ["s.txt"] else if p == "s2.txt" then ["s2.txt"] else [],
    envsubst := fun s => some s,
    shlexSplit := fun s => if s == "" then [] else [s],
    checksumSchemeOk := fun _ => true,
    getChecksum := fun _ p => [("", some ("ck-" ++ p))],
    hasCompressHandler := fun _ => false,
    regexOk := fun _ => true,
    regexMatch := fun _ _ => none,
    taskCycleTime := none,
    suiteName := some "suite",
    runCmd := fun _ => (0, "", ""),
    shellJoin := fun l => String.intercalate " " l,
    compressTarget := fun _ _ => none }

/-- A world in which the source-edit command for `s.txt` exits nonzero. -/
def wEditFail : World :=
  { wDemo with
    runCmd := fun c => if c == "ed s.txt work/s.txt" then (1, "", "") else (0, "", "") }

/-- A world in which `ROSE_SUITE_NAME` is unset. -/
def wNoSuite : World := { wDemo with suiteName := none }

/-- A well-formed archive command template. -/
def cfDemo : String := "cp %(sources)s %(target)s"

/-- One compulsory target `t.tar` archiving the existing source `s.txt`. -/
def cfgDemo : Config :=
  { entries := [("arch:t.tar",
      { isIgnored := false, opts := [("command-format", cfDemo), ("source", "s.txt")] })],
    archOpts := [] }

/-- One compulsory target whose compulsory source matches no file. -/
def cfgBad : Config :=
  { entries := [("arch:t.tar",
      { isIgnored := false,
        opts := [("command-format", cfDemo), ("source", "missing.txt")] })],
    archOpts := [] }

/-- One optional (parenthesised) target whose unwrapped source pattern
matches no file. -/
def cfgOpt : Config :=
  { entries := [("arch:(t.tar)",
      { isIgnored := false,
        opts := [("command-format", cfDemo), ("source", "missing.txt")] })],
    archOpts := [] }

/-- Two entries whose distinct section-key tails resolve to the same final
target name `p/x.tar` once the second entry's `target-prefix` is applied. -/
def cfgC4 : Config :=
  { entries :=
      [("arch:p/x.tar",
        { isIgnored := false, opts := [("command-format", cfDemo), ("source", "s.txt")] }),
       ("arch:x.tar",
        { isIgnored := false,
          opts := [("target-prefix", "p/"), ("command-format", cfDemo),
            ("source", "s2.txt")] })],
    archOpts := [] }

/-- Two entries with the same tail `t.tar`: the first spells it optional, the
second compulsory. -/
def cfgDupDemo : Config :=
  { entries :=
      [("arch:(t.tar)",
        { isIgnored := false, opts := [("command-format", cfDemo), ("source", "s.txt")] }),
       ("arch:t.tar",
        { isIgnored := false, opts := [("command-format", cfDemo), ("source", "s.txt")] })],
    archOpts := [] }

/-- The `cfgDemo` target with its `command-format` changed to a template whose
`%(foo)s` key is unknown, which the format test of `_run_target_setup` turns
into a BAD status. -/
def cfgC2 : Config :=
  { entries := [("arch:t.tar",
      { isIgnored := false,
        opts := [("command-format", "%(foo)s"), ("source", "s.txt")] })],
    archOpts := [] }

/-- The `cfgDemo` target with a `source-edit-format`, whose staged command
fails under `wEditFail`. -/
def cfgC8 : Config :=
  { entries := [("arch:t.tar",
      { isIgnored := false,
        opts := [("command-format", cfDemo), ("source", "s.txt"),
          ("source-edit-format", "ed %(in)s %(out)s")] })],
    archOpts := [] }

/-- A cache holding the rows the `cfgC4` entry `arch:p/x.tar` would write. -/
def dbSeed : DB :=
  { targets := [⟨"p/x.tar", none, some cfDemo, 0, some ""⟩],
    sources := [⟨"p/x.tar", "s.txt", "ck-s.txt"⟩] }

/-- A cache holding rows for a target name no configuration entry resolves. -/
def dbStale : DB :=
  { targets := [⟨"stale.tar", none, some cfDemo, 0, some ""⟩],
    sources := [⟨"stale.tar", "s.txt", "ck-s.txt"⟩] }

/-- The target `_run_target_setup` resolves from the `cfgDemo` entry. -/
def tC8 : RoseArchTarget :=
  { name := "t.tar", compressScheme := none, commandFormat := some cfDemo, commandRc := 0,
    sources := [("ck-s.txt", mkRoseArchSource "ck-s.txt" "s.txt" (some "s.txt"))],
    sourceEditFormat := some "", status := none, workSourcePath := none }

/-- The `cfgDemo` target after a successful archive command. -/
def tC8ok : RoseArchTarget := { tC8 with status := some ArchStatus.new }

/-- The cache content after a completed `cfgDemo` run. -/
def dbDemo1 : DB :=
  { targets := [⟨"t.tar", none, some cfDemo, 0, some ""⟩],
    sources := [⟨"t.tar", "s.txt", "ck-s.txt"⟩] }

/-- The `cfgC2` resolved target: differing `command_format`, BAD at setup. -/
def tFreshC2 : RoseArchTarget :=
  { tC8 with commandFormat := some "%(foo)s", status := some ArchStatus.bad }

/-- The `cfgOpt` resolved target: zero sources, optional, hence NULL. -/
def tOptNull : RoseArchTarget :=
  { name := "t.tar", compressScheme := none, commandFormat := some cfDemo, commandRc := 0,
    sources := [], sourceEditFormat := some "", status := some ArchStatus.null,
    workSourcePath := none }

/-- A bare target marked BAD. -/
def tBadC6 : RoseArchTarget := { mkRoseArchTarget "t.tar" with status := some ArchStatus.bad }

/-- A bare target marked NULL. -/
def tNullC6 : RoseArchTarget := { mkRoseArchTarget "t.tar" with status := some ArchStatus.null }

/-- The resolved `(tail, target)` list of `cfgDemo`. -/
def fsDemo : List (String × RoseArchTarget) := [("t.tar", tC8)]

end RoseArch

namespace RosePrune

/-- The remote housekeeping shell-command template of `RosePruneApp.run`; its
final placeholder lacks a conversion character. -/
def shCmdTemplate : String := "cd %(d)s && ls -d %(g)s && rm -rf %(g)"

/-- The `sh_cmd` construction of `RosePruneApp.run`: `%`-substitution of the
relative suite directory and the space-joined glob list into the template. -/
def shCmd (suiteDirRel : String) (globs : List String) : Except RoseArch.FmtErr String :=
  RoseArch.pyFormat shCmdTemplate
    [("d", suiteDirRel), ("g", String.intercalate " " globs)]

end RosePrune

namespace RoseArch

/-! ## Order lemmas for the character-list comparison -/

theorem chLt_irrefl : ∀ l, chLt l l = false
  | [] => rfl
  | a :: as => by simp [chLt, chLt_irrefl as]

theorem chLt_asymm : ∀ {a b : List Char}, chLt a b = true → chLt b a = false
  | [], [], h => by simp [chLt] at h
  | [], _ :: _, _ => rfl
  | _ :: _, [], h => by simp [chLt] at h
  | a :: as, b :: bs, h => by
    by_cases hab : a < b
    · have : ¬ b < a := lt_asymm hab
      simp [chLt, this, hab]
    · by_cases hba : b < a
      · simp [chLt, hab, hba] at h
      · have h' : chLt as bs = true := by simpa [chLt, hab, hba] using h
        simpa [chLt, hab, hba] using chLt_asymm h'

theorem chLt_eq_of_not : ∀ {a b : List Char}, chLt a b = false → chLt b a = false → a = b
  | [], [], _, _ => rfl
  | [], _ :: _, h, _ => by simp [chLt] at h
  | _ :: _, [], _, h => by simp [chLt] at h
  | a :: as, b :: bs, h, h' => by
    by_cases hab : a < b
    · simp [chLt, hab] at h
    · by_cases hba : b < a
      · simp [chLt, hba] at h'
      · have hcc : a = b := le_antisymm (not_lt.mp hba) (not_lt.mp hab)
        have h1 : chLt as bs = false := by simpa [chLt, hab, hba] using h
        have h2 : chLt bs as = false := by simpa [chLt, hab, hba] using h'
        rw [hcc, chLt_eq_of_not h1 h2]

theorem chLt_trans : ∀ {a b c : List Char},
    chLt a b = true → chLt b c = true → chLt a c = true
  | [], [], _, h, _ => by simp [chLt] at h
  | [], _ :: _, [], _, h => by simp [chLt] at h
  | [], _ :: _, _ :: _, _, _ => rfl
  | _ :: _, [], _, h, _ => by simp [chLt] at h
  | _ :: _, _ :: _, [], _, h => by simp [chLt] at h
  | a :: as, b :: bs, c :: cs, h, h' => by
    by_cases hab : a < b
    · by_cases hbc : b < c
      · simp [chLt, lt_trans hab hbc]
      · by_cases hcb : c < b
        · simp [chLt, hbc, hcb] at h'
        · have hbceq : b = c := le_antisymm (not_lt.mp hcb) (not_lt.mp hbc)
          simp [chLt, hbceq ▸ hab]
    · by_cases hba : b < a
      · simp [chLt, hab, hba] at h
      · have habeq : a = b := le_antisymm (not_lt.mp hba) (not_lt.mp hab)
        subst habeq
        by_cases hac : a < c
        · simp [chLt, hac]
        · by_cases hca : c < a
          · simp [chLt, hac, hca] at h'
          · have h1 : chLt as bs = true := by simpa [chLt, lt_irrefl] using h
            have h2 : chLt bs cs = true := by simpa [chLt, hac, hca] using h'
            simp [chLt, hac, hca, chLt_trans h1 h2]

theorem strEq_of_data {a b : String} (h : a.data = b.data) : a = b := by
  cases a; cases b; exact congrArg String.mk h

theorem strLtB_irrefl (a : String) : strLtB a a = false := chLt_irrefl a.data

theorem strLtB_asymm {a b : String} (h : strLtB a b = true) : strLtB b a = false :=
  chLt_asymm h

theorem strLtB_eq_of_not {a b : String} (h : strLtB a b = false) (h' : strLtB b a = false) :
    a = b :=
  strEq_of_data (chLt_eq_of_not h h')

theorem strLtB_trans {a b c : String} (h : strLtB a b = true) (h' : strLtB b c = true) :
    strLtB a c = true :=
  chLt_trans h h'

theorem strLtB_ne {a b : String} (h : strLtB a b = true) : a ≠ b := by
  intro he
  subst he
  simp [strLtB_irrefl] at h

/-! ## Generic list lemmas for the row stores -/

theorem find?_filter_of_imp {α : Type} (p q : α → Bool) :
    ∀ (l : List α), (∀ a ∈ l, p a = true → q a = true) →
      (l.filter q).find? p = l.find? p
  | [], _ => rfl
  | a :: l, h => by
    have ih := find?_filter_of_imp p q l (fun x hx => h x (List.mem_cons_of_mem a hx))
    cases hp : p a with
    | true =>
      have hq := h a (List.mem_cons_self a l) hp
      simp [List.filter_cons, hq, List.find?_cons, hp]
    | false =>
      cases hq : q a with
      | true => simp [List.filter_cons, hq, List.find?_cons, hp, ih]
      | false => simp [List.filter_cons, hq, List.find?_cons, hp, ih]

theorem filter_filter_of_imp {α : Type} (p q : α → Bool) :
    ∀ (l : List α), (∀ a ∈ l, p a = true → q a = true) →
      (l.filter q).filter p = l.filter p
  | [], _ => rfl
  | a :: l, h => by
    have ih := filter_filter_of_imp p q l (fun x hx => h x (List.mem_cons_of_mem a hx))
    cases hp : p a with
    | true =>
      have hq := h a (List.mem_cons_self a l) hp
      simp [List.filter_cons, hq, hp, ih]
    | false =>
      cases hq : q a with
      | true => simp [List.filter_cons, hq, hp, ih]
      | false => simp [List.filter_cons, hq, hp, ih]

theorem find?_map_comm {α : Type} (f : α → α) (p : α → Bool)
    (h : ∀ a, p (f a) = p a) :
    ∀ (l : List α), (l.map f).find? p = (l.find? p).map f
  | [] => rfl
  | a :: l => by
    cases hp : p a with
    | true => simp [List.find?_cons, hp, h a]
    | false => simp [List.find?_cons, hp, h a, find?_map_comm f p h l]

/-! ## Cache-store lemmas -/

theorem selectDB_name_eq {db : DB} {n : String} {c : RoseArchTarget}
    (h : selectDB db n = some c) : c.name = n := by
  unfold selectDB at h
  cases hf : db.targets.find? (fun r => r.name == n) with
  | none => rw [hf] at h; exact absurd h (by simp)
  | some row =>
    rw [hf] at h
    cases h
    rfl

theorem selectDB_dbDelete_ne {db : DB} {m n : String} (h : ¬ n = m) :
    selectDB (dbDelete db m) n = selectDB db n := by
  unfold selectDB dbDelete
  rw [find?_filter_of_imp, filter_filter_of_imp]
  · intro r _ hr
    have : r.targetName = n := by simpa using hr
    simp [this, h]
  · intro r _ hr
    have : r.name = n := by simpa using hr
    simp [this, h]

theorem dbNoName_dbDelete_self (db : DB) (n : String) : dbNoName (dbDelete db n) n := by
  constructor
  · intro r hr
    have := List.of_mem_filter hr
    simpa using this
  · intro r hr
    have := List.of_mem_filter hr
    simpa using this

theorem dbNoName_dbDelete {db : DB} {n : String} (h : dbNoName db n) (m : String) :
    dbNoName (dbDelete db m) n := by
  constructor
  · intro r hr
    exact h.1 r (List.mem_of_mem_filter hr)
  · intro r hr
    exact h.2 r (List.mem_of_mem_filter hr)

theorem selectDB_dbDeleteAll_mem {db : DB} {n : String} {names : List String}
    (h : n ∈ names) : selectDB (dbDeleteAll db names) n = selectDB db n := by
  unfold selectDB dbDeleteAll
  have hne : names.isEmpty = false := by
    cases names with
    | nil => cases h
    | cons a l => rfl
  rw [hne]
  simp only [Bool.false_eq_true, if_false]
  rw [find?_filter_of_imp, filter_filter_of_imp]
  · intro r _ hr
    have hrn : r.targetName = n := by simpa using hr
    simp only [List.any_eq_true]
    exact ⟨n, h, by simp [hrn]⟩
  · intro r _ hr
    have hrn : r.name = n := by simpa using hr
    simp only [List.any_eq_true]
    exact ⟨n, h, by simp [hrn]⟩

theorem dbNoName_dbDeleteAll {db : DB} {n : String} (h : dbNoName db n)
    (names : List String) : dbNoName (dbDeleteAll db names) n := by
  unfold dbDeleteAll
  cases hne : names.isEmpty with
  | true => simpa [emptyDB] using ⟨fun r hr => absurd hr (by simp), fun r hr => absurd hr (by simp)⟩
  | false =>
    constructor
    · intro r hr
      exact h.1 r (List.mem_of_mem_filter hr)
    · intro r hr
      exact h.2 r (List.mem_of_mem_filter hr)

theorem dbInsert_ok_of_noName {db : DB} {t : RoseArchTarget} (h : dbNoName db t.name) :
    dbInsert db t = .ok
      { targets := db.targets ++
          [⟨t.name, t.compressScheme, t.commandFormat, t.commandRc, t.sourceEditFormat⟩],
        sources := db.sources ++ t.sources.map (fun p => ⟨t.name, p.2.name, p.1⟩) } := by
  unfold dbInsert
  have h1 : db.targets.any (fun r => r.name == t.name) = false := by
    rw [List.any_eq_false]
    intro r hr
    simpa using h.1 r hr
  have h2 : (t.sources.map (fun p => (⟨t.name, p.2.name, p.1⟩ : SourceRow))).any (fun r =>
      db.sources.any (fun r' => r'.targetName == r.targetName && r'.checksum == r.checksum)) =
      false := by
    rw [List.any_eq_false]
    intro r hr
    rw [Bool.not_eq_true, List.any_eq_false]
    intro r' hr'
    rcases List.mem_map.mp hr with ⟨p, _, hp⟩
    subst hp
    simpa using fun he _ => (h.2 r' hr') he
  rw [h1, h2]
  simp

theorem selectDB_dbInsert_ne {db db' : DB} {t : RoseArchTarget} {n : String}
    (hins : dbInsert db t = .ok db') (h : ¬ n = t.name) :
    selectDB db' n = selectDB db n := by
  unfold dbInsert at hins
  split at hins
  · cases hins
  · split at hins
    · cases hins
    · cases hins
      unfold selectDB
      rw [List.find?_append, List.filter_append]
      have hne : (t.name == n) = false := by
        simp only [beq_eq_false_iff_ne, ne_eq]
        exact fun he => h he.symm
      have h1 : List.find? (fun r => r.name == n)
          [(⟨t.name, t.compressScheme, t.commandFormat, t.commandRc, t.sourceEditFormat⟩ :
            TargetRow)] = none := by
        simp [List.find?, hne]
      have h2 : (t.sources.map (fun p => (⟨t.name, p.2.name, p.1⟩ : SourceRow))).filter
          (fun r => r.targetName == n) = [] := by
        rw [List.filter_eq_nil_iff]
        intro r hr
        rcases List.mem_map.mp hr with ⟨p, _, hp⟩
        subst hp
        simpa using fun he => h he.symm
      rw [h1, h2]
      cases List.find? (fun r => r.name == n) db.targets <;> simp

theorem dbNoName_dbInsert_ne {db db' : DB} {t : RoseArchTarget} {n : String}
    (hins : dbInsert db t = .ok db') (h : ¬ n = t.name) (hn : dbNoName db n) :
    dbNoName db' n := by
  unfold dbInsert at hins
  split at hins
  · cases hins
  · split at hins
    · cases hins
    · cases hins
      constructor
      · intro r hr
        rcases List.mem_append.mp hr with hr | hr
        · exact hn.1 r hr
        · have : r = ⟨t.name, t.compressScheme, t.commandFormat, t.commandRc,
              t.sourceEditFormat⟩ := by simpa using hr
          subst this
          simpa using fun he => h he.symm
      · intro r hr
        rcases List.mem_append.mp hr with hr | hr
        · exact hn.2 r hr
        · rcases List.mem_map.mp hr with ⟨p, _, hp⟩
          subst hp
          simpa using fun he => h he.symm

theorem selectDB_dbUpdateRc_ne {db : DB} {t : RoseArchTarget} {n : String}
    (h : ¬ n = t.name) : selectDB (dbUpdateRc db t) n = selectDB db n := by
  unfold selectDB dbUpdateRc
  rw [find?_map_comm]
  · cases hf : db.targets.find? (fun r => r.name == n) with
    | none => simp
    | some row =>
      have hrow : row.name = n := by
        have := List.find?_some hf
        simpa using this
      have : ¬ row.name = t.name := by rw [hrow]; exact h
      simp [this]
  · intro r
    by_cases hr : r.name = t.name
    · simp [hr, fun he : t.name = n => h he.symm]
    · simp [hr]

theorem dbNoName_dbUpdateRc {db : DB} {t : RoseArchTarget} {n : String}
    (hn : dbNoName db n) : dbNoName (dbUpdateRc db t) n := by
  constructor
  · intro r hr
    rcases List.mem_map.mp hr with ⟨r0, hr0, hr0e⟩
    have := hn.1 r0 hr0
    by_cases hc : r0.name = t.name
    · rw [← hr0e]; simpa [hc] using this
    · rw [← hr0e]; simpa [hc] using this
  · intro r hr
    exact hn.2 r hr

/-! ## Source-dictionary lemmas -/

theorem dictInsert_mem_sub {k : String} {v : RoseArchSource} :
    ∀ {l : List (String × RoseArchSource)} {p : String × RoseArchSource},
      p ∈ dictInsert k v l → p = (k, v) ∨ p ∈ l := by
  intro l
  induction l with
  | nil => intro p hp; simpa [dictInsert] using hp
  | cons q rest ih =>
    intro p hp
    unfold dictInsert at hp
    split at hp
    · rcases List.mem_cons.mp hp with hp | hp
      · exact Or.inl hp
      · exact Or.inr (List.mem_cons_of_mem q hp)
    · split at hp
      · rcases List.mem_cons.mp hp with hp | hp
        · exact Or.inl hp
        · exact Or.inr hp
      · rcases List.mem_cons.mp hp with hp | hp
        · exact Or.inr (hp ▸ List.mem_cons_self q rest)
        · rcases ih hp with hp | hp
          · exact Or.inl hp
          · exact Or.inr (List.mem_cons_of_mem q hp)

theorem dictInsert_keys_sub {k : String} {v : RoseArchSource}
    {l : List (String × RoseArchSource)} {x : String}
    (hx : x ∈ (dictInsert k v l).map (fun p => p.1)) :
    x = k ∨ x ∈ l.map (fun p => p.1) := by
  rcases List.mem_map.mp hx with ⟨p, hp, he⟩
  rcases dictInsert_mem_sub hp with hp | hp
  · left; rw [← he, hp]
  · right; exact List.mem_map.mpr ⟨p, hp, he⟩

theorem dictInsert_sorted {k : String} {v : RoseArchSource} :
    ∀ {l : List (String × RoseArchSource)}, srcKeysSorted l →
      srcKeysSorted (dictInsert k v l) := by
  intro l
  induction l with
  | nil => intro _; simp [dictInsert, srcKeysSorted]
  | cons q rest ih =>
    intro h
    have hq : ∀ x ∈ rest.map (fun p => p.1), strLtB q.1 x = true := by
      intro x hx
      exact (List.pairwise_cons.mp h).1 x hx
    have hrest : srcKeysSorted rest := (List.pairwise_cons.mp h).2
    unfold dictInsert
    split
    · next he =>
      subst he
      exact List.pairwise_cons.mpr ⟨hq, hrest⟩
    · split
      · next hne hlt =>
        refine List.pairwise_cons.mpr ⟨?_, h⟩
        intro x hx
        rcases List.mem_cons.mp hx with hx | hx
        · rw [hx]; exact hlt
        · exact strLtB_trans hlt (hq x hx)
      · next hne hnlt =>
        have hqk : strLtB q.1 k = true := by
          cases hqk : strLtB q.1 k with
          | true => rfl
          | false =>
            exact absurd (strLtB_eq_of_not (Bool.of_not_eq_true hnlt) hqk) hne
        refine List.pairwise_cons.mpr ⟨?_, ih hrest⟩
        intro x hx
        rcases dictInsert_keys_sub hx with hx | hx
        · rw [hx]; exact hqk
        · exact hq x hx

theorem dictInsert_checksums {k : String} {v : RoseArchSource}
    {l : List (String × RoseArchSource)} (h : keysChecksums l) (hv : v.checksum = k) :
    keysChecksums (dictInsert k v l) := by
  intro p hp
  rcases dictInsert_mem_sub hp with hp | hp
  · rw [hp]; exact hv
  · exact h p hp

theorem dictInsert_append_big {k : String} {v : RoseArchSource} :
    ∀ {l : List (String × RoseArchSource)},
      (∀ p ∈ l, strLtB p.1 k = true) → dictInsert k v l = l ++ [(k, v)] := by
  intro l
  induction l with
  | nil => intro _; rfl
  | cons q rest ih =>
    intro hk
    have hqk : strLtB q.1 k = true := hk q (List.mem_cons_self q rest)
    have hne : ¬ k = q.1 := fun he => strLtB_ne hqk he.symm
    have hnlt : strLtB k q.1 = false := strLtB_asymm hqk
    unfold dictInsert
    rw [if_neg hne, hnlt]
    simp only [Bool.false_eq_true, if_false, List.cons_append, List.cons.injEq, true_and]
    exact ih (fun p hp => hk p (List.mem_cons_of_mem q hp))

theorem rebuild_aux (n : String) :
    ∀ (l acc : List (String × RoseArchSource)),
      ((acc ++ l).map (fun p => p.1)).Pairwise (fun a b => strLtB a b = true) →
      (l.map (fun p => (⟨n, p.2.name, p.1⟩ : SourceRow))).foldl
        (fun acc2 r => dictInsert r.checksum (mkRoseArchSource r.checksum r.sourceName none) acc2)
        acc
      = acc ++ l.map (fun p => (p.1, mkRoseArchSource p.1 p.2.name none)) := by
  intro l
  induction l with
  | nil => intro acc _; simp
  | cons p rest ih =>
    intro acc hs
    have hkeys : (acc.map (fun p => p.1) ++ p.1 :: rest.map (fun p => p.1)).Pairwise
        (fun a b => strLtB a b = true) := by
      simpa using hs
    have haccp : ∀ q ∈ acc, strLtB q.1 p.1 = true := by
      intro q hq
      have := (List.pairwise_append.mp hkeys).2.2 q.1 (List.mem_map.mpr ⟨q, hq, rfl⟩)
        p.1 (List.mem_cons_self _ _)
      exact this
    simp only [List.map_cons, List.foldl_cons]
    rw [dictInsert_append_big haccp]
    have hs' : (((acc ++ [(p.1, mkRoseArchSource p.1 p.2.name none)]) ++ rest).map
        (fun p => p.1)).Pairwise (fun a b => strLtB a b = true) := by
      have : ((acc ++ [(p.1, mkRoseArchSource p.1 p.2.name none)]) ++ rest).map
          (fun p => p.1) = acc.map (fun p => p.1) ++ p.1 :: rest.map (fun p => p.1) := by
        simp
      rw [this]
      exact hkeys
    rw [ih (acc ++ [(p.1, mkRoseArchSource p.1 p.2.name none)]) hs']
    simp

theorem selectDB_after_insert {db db' : DB} {t : RoseArchTarget}
    (hnn : dbNoName db t.name) (hs : srcKeysSorted t.sources)
    (hins : dbInsert db t = .ok db') : selectDB db' t.name = some (cachedOf t) := by
  rw [dbInsert_ok_of_noName hnn] at hins
  cases hins
  unfold selectDB
  have h1 : List.find? (fun r => r.name == t.name) db.targets = none := by
    rw [List.find?_eq_none]
    intro r hr
    simpa using hnn.1 r hr
  have h2 : db.sources.filter (fun r => r.targetName == t.name) = [] := by
    rw [List.filter_eq_nil_iff]
    intro r hr
    simpa using hnn.2 r hr
  rw [List.find?_append, h1, List.filter_append, h2]
  have h3 : List.find? (fun r => r.name == t.name)
      [(⟨t.name, t.compressScheme, t.commandFormat, t.commandRc, t.sourceEditFormat⟩ :
        TargetRow)] = some ⟨t.name, t.compressScheme, t.commandFormat, t.commandRc,
        t.sourceEditFormat⟩ := by
    simp [List.find?]
  have h4 : (t.sources.map (fun p => (⟨t.name, p.2.name, p.1⟩ : SourceRow))).filter
      (fun r => r.targetName == t.name) = t.sources.map (fun p => ⟨t.name, p.2.name, p.1⟩) := by
    rw [List.filter_eq_self]
    intro r hr
    rcases List.mem_map.mp hr with ⟨p, _, hp⟩
    subst hp
    simp
  rw [h3, h4]
  simp only [Option.or_some, List.nil_append]
  rw [rebuild_aux t.name t.sources [] (by simpa [srcKeysSorted] using hs)]
  rfl

theorem selectDB_dbUpdateRc_self {db : DB} {n : String} {c t : RoseArchTarget}
    (hsel : selectDB db n = some c) (ht : t.name = n) :
    selectDB (dbUpdateRc db t) n = some { c with commandRc := t.commandRc } := by
  unfold selectDB at hsel ⊢
  unfold dbUpdateRc
  rw [find?_map_comm]
  · cases hf : db.targets.find? (fun r => r.name == n) with
    | none => rw [hf] at hsel; exact absurd hsel (by simp)
    | some row =>
      rw [hf] at hsel
      have hrow : row.name = n := by
        have := List.find?_some hf
        simpa using this
      have hbeq : (row.name == t.name) = true := by simp [hrow, ht]
      simp only [Option.map_some', hbeq, if_true] at *
      rw [← Option.some_inj.mp hsel]
  · intro r
    by_cases hr : r.name = t.name
    · simp [hr]
    · simp [hr]

/-! ## Equality-test lemmas -/

theorem beqSources_cached :
    ∀ {l : List (String × RoseArchSource)}, keysChecksums l →
      beqSources (l.map (fun p => (p.1, mkRoseArchSource p.1 p.2.name none))) l = true := by
  intro l
  induction l with
  | nil => intro _; rfl
  | cons p rest ih =>
    intro hc
    have hp := hc p (List.mem_cons_self p rest)
    simp only [List.map_cons, beqSources]
    rw [ih (fun q hq => hc q (List.mem_cons_of_mem p hq))]
    simp [beqSource, mkRoseArchSource, hp]

theorem beqTarget_cachedOf {t : RoseArchTarget} (hc : keysChecksums t.sources) :
    beqTarget (cachedOf t) t = true := by
  simp [beqTarget, cachedOf, beqSources_cached hc]

/-! ## Invariants of freshly resolved targets -/

theorem foldl_pres {α : Type} (P : RoseArchTarget → Prop)
    (f : RoseArchTarget → α → RoseArchTarget) (hf : ∀ t a, P t → P (f t a)) :
    ∀ (l : List α) (t : RoseArchTarget), P t → P (l.foldl f t)
  | [], _, h => h
  | a :: l, t, h => foldl_pres P f hf l (f t a) (hf t a h)

theorem freshInv_sources_set {t : RoseArchTarget} {ck : String} {s : RoseArchSource}
    (h : freshInv t) (hs : s.checksum = ck) :
    freshInv { t with sources := dictInsert ck s t.sources } :=
  ⟨h.1, dictInsert_sorted h.2.1, dictInsert_checksums h.2.2.1 hs, h.2.2.2.1, h.2.2.2.2⟩

theorem freshInv_set_bad {t : RoseArchTarget} (h : freshInv t) :
    freshInv { t with status := some ArchStatus.bad } :=
  ⟨h.1, h.2.1, h.2.2.1, by simp, by simp⟩

theorem procChecksumItem_inv {name path : String} {t : RoseArchTarget}
    {pr : String × Option String} (h : freshInv t) :
    freshInv (procChecksumItem name path t pr) := by
  unfold procChecksumItem
  rcases pr with ⟨p1, p2⟩
  cases p2 with
  | none => exact h
  | some ck =>
    dsimp only
    split
    · exact freshInv_sources_set h rfl
    · exact freshInv_sources_set h rfl

theorem procPath_inv {w : World} {upd : Option String} {spfx : String}
    {t : RoseArchTarget} {path : String} (h : freshInv t) :
    freshInv (procPath w upd spfx t path) :=
  foldl_pres freshInv _ (fun _ _ h0 => procChecksumItem_inv h0) _ _ h

theorem procSourceTok_inv (w : World) (upd : Option String) (spfx : String)
    (isCompT : Bool) (t : RoseArchTarget) (tok : String) (h : freshInv t) :
    freshInv (procSourceTok w upd spfx isCompT t tok) := by
  unfold procSourceTok
  split
  · split
    · exact freshInv_set_bad h
    · exact h
  · exact foldl_pres freshInv _ (fun _ _ h0 => procPath_inv h0) _ _ h

theorem zeroSourceRule_inv {isCompT : Bool} {t : RoseArchTarget} (h : freshInv t) :
    freshInv (zeroSourceRule isCompT t) := by
  unfold zeroSourceRule
  split
  · exact ⟨h.1, h.2.1, h.2.2.1, by cases isCompT <;> simp, by cases isCompT <;> simp⟩
  · exact h

theorem compressStage_inv {w : World} {t : RoseArchTarget} {cmpO : Option String}
    (h : freshInv t) : freshInv (compressStage w t cmpO) := by
  unfold compressStage
  have hset : freshInv { t with compressScheme := cmpO } :=
    ⟨h.1, h.2.1, h.2.2.1, h.2.2.2.1, h.2.2.2.2⟩
  dsimp only
  repeat' split
  all_goals first
    | exact hset
    | exact ⟨hset.1, hset.2.1, hset.2.2.1, hset.2.2.2.1, hset.2.2.2.2⟩
    | exact freshInv_set_bad hset

theorem renameOne_checksum {w : World} {tName rf : String} {rpO : Option String}
    {s s' : RoseArchSource} (h : renameOne w tName rf rpO s = .ok s') :
    s'.checksum = s.checksum := by
  unfold renameOne at h
  split at h
  · cases h; rfl
  · cases h
  · cases h
  · cases h

theorem renameFold_rel {w : World} {tName rf : String} {rpO : Option String} :
    ∀ {l l' : List (String × RoseArchSource)}, renameFold w tName rf rpO l = .ok l' →
      l'.map (fun p => p.1) = l.map (fun p => p.1) ∧
      (∀ q ∈ l', ∃ p ∈ l, q.1 = p.1 ∧ q.2.checksum = p.2.checksum) := by
  intro l
  induction l with
  | nil =>
    intro l' h
    cases h
    exact ⟨rfl, by simp⟩
  | cons p rest ih =>
    intro l' h
    unfold renameFold at h
    cases ho : renameOne w tName rf rpO p.2 with
    | error e => rw [ho] at h; cases h
    | ok s' =>
      rw [ho] at h
      cases hr : renameFold w tName rf rpO rest with
      | error e =>
        rw [hr] at h
        simp only [Except.map] at h
        cases h
      | ok rest' =>
        rw [hr] at h
        simp only [Except.map] at h
        cases h
        rcases ih hr with ⟨hkeys, hmem⟩
        constructor
        · simp only [List.map_cons, hkeys]
        · intro q hq
          rcases List.mem_cons.mp hq with hq | hq
          · subst hq
            exact ⟨p, List.mem_cons_self p rest, rfl, renameOne_checksum ho⟩
          · rcases hmem q hq with ⟨p0, hp0, he⟩
            exact ⟨p0, List.mem_cons_of_mem p hp0, he⟩

theorem renameStage_inv {w : World} {cfg : Config} {nd : ConfNode} {t t' : RoseArchTarget}
    {rfO : Option String} (h : renameStage w cfg nd t rfO = .ok t') (hinv : freshInv t) :
    freshInv t' := by
  unfold renameStage at h
  split at h
  · cases h; exact hinv
  · split at h
    · cases h
    · split at h
      · cases h
      · cases hr : renameFold w t.name (rfO.getD "") _ t.sources with
        | error e => rw [hr] at h; cases h
        | ok srcs =>
          rw [hr] at h
          cases h
          rcases renameFold_rel hr with ⟨hkeys, hmem⟩
          refine ⟨hinv.1, ?_, ?_, hinv.2.2.2.1, hinv.2.2.2.2⟩
          · unfold srcKeysSorted
            rw [hkeys]
            exact hinv.2.1
          · intro q hq
            rcases hmem q hq with ⟨p, hp, he1, he2⟩
            rw [he2, hinv.2.2.1 p hp, he1]

theorem freshInv_base (n : String) (cf sef : Option String) (st : Option ArchStatus)
    (h1 : ¬ st = some ArchStatus.old) (h2 : ¬ st = some ArchStatus.new) :
    freshInv { name := (mkRoseArchTarget n).name,
               compressScheme := (mkRoseArchTarget n).compressScheme,
               commandFormat := cf,
               commandRc := (mkRoseArchTarget n).commandRc,
               sources := (mkRoseArchTarget n).sources,
               sourceEditFormat := sef,
               status := st,
               workSourcePath := (mkRoseArchTarget n).workSourcePath } := by
  refine ⟨rfl, ?_, ?_, h1, h2⟩ <;>
    simp [mkRoseArchTarget, srcKeysSorted, keysChecksums]

theorem runTargetSetup_inv {w : World} {cfg : Config} {tl : String} {nd : ConfNode}
    {isC : Bool} {t : RoseArchTarget} (h : runTargetSetup w cfg tl nd isC = .ok t) :
    freshInv t := by
  unfold runTargetSetup at h
  repeat' (first
  | split at h
  | dsimp only at h)
  any_goals cases h
  any_goals (refine renameStage_inv h ?_
             apply compressStage_inv
             apply zeroSourceRule_inv
             refine foldl_pres freshInv _ (procSourceTok_inv w _ _ _) _ _ ?_
             refine freshInv_base _ _ _ _ ?_ ?_ <;> simp [mkRoseArchTarget])
  all_goals (exfalso; simp_all)

/-! ## Setup-loop lemmas -/

theorem cacheFold_cons (db : DB) (t : RoseArchTarget) (ts : List RoseArchTarget) :
    cacheFold db (t :: ts) =
      ((cacheFold (cacheCheck db t).1 ts).1,
        (cacheCheck db t).2 :: (cacheFold (cacheCheck db t).1 ts).2) := rfl

theorem cacheCheck_name (db : DB) (t : RoseArchTarget) :
    (cacheCheck db t).2.name = t.name := by
  unfold cacheCheck
  cases selectDB db t.name with
  | none => rfl
  | some old =>
    dsimp only
    split <;> rfl

theorem cacheCheck_cases (db : DB) (t : RoseArchTarget) :
    (∃ c, selectDB db t.name = some c ∧ beqTarget c t = true ∧
      cacheCheck db t = (db, { t with status := some ArchStatus.old })) ∨
    cacheCheck db t = (dbDelete db t.name, t) := by
  cases hs : selectDB db t.name with
  | none => exact Or.inr (by unfold cacheCheck; rw [hs])
  | some c =>
    cases hb : beqTarget c t with
    | true =>
      refine Or.inl ⟨c, rfl, hb, ?_⟩
      unfold cacheCheck
      rw [hs]
      simp [hb]
    | false => exact Or.inr (by unfold cacheCheck; rw [hs]; simp [hb])

theorem cacheCheck_fst_cases (db : DB) (t : RoseArchTarget) :
    (cacheCheck db t).1 = db ∨ (cacheCheck db t).1 = dbDelete db t.name := by
  rcases cacheCheck_cases db t with ⟨c, _, _, he⟩ | he
  · rw [he]; exact Or.inl rfl
  · rw [he]; exact Or.inr rfl

theorem cacheFold_names : ∀ (ts : List RoseArchTarget) (db : DB),
    (cacheFold db ts).2.map (fun t => t.name) = ts.map (fun t => t.name)
  | [], _ => rfl
  | t :: ts, db => by
    rw [cacheFold_cons]
    simp only [List.map_cons, cacheFold_names ts, cacheCheck_name]

theorem cacheFold_noName : ∀ (ts : List RoseArchTarget) (db : DB) (n : String),
    dbNoName db n → dbNoName (cacheFold db ts).1 n
  | [], _, _, h => h
  | t :: ts, db, n, h => by
    rw [cacheFold_cons]
    refine cacheFold_noName ts _ n ?_
    rcases cacheCheck_fst_cases db t with he | he
    · rw [he]; exact h
    · rw [he]; exact dbNoName_dbDelete h _

theorem cacheFold_sel_frame : ∀ (ts : List RoseArchTarget) (db : DB) (n : String),
    (∀ t ∈ ts, ¬ t.name = n) → selectDB (cacheFold db ts).1 n = selectDB db n
  | [], _, _, _ => rfl
  | t :: ts, db, n, h => by
    rw [cacheFold_cons]
    have h1 := cacheFold_sel_frame ts (cacheCheck db t).1 n
      (fun g hg => h g (List.mem_cons_of_mem t hg))
    rw [h1]
    rcases cacheCheck_fst_cases db t with he | he
    · rw [he]
    · rw [he]
      exact selectDB_dbDelete_ne (fun he2 => h t (List.mem_cons_self t ts) (he2.symm ▸ rfl))

theorem cacheFold_main : ∀ (ts : List RoseArchTarget) (db : DB),
    (ts.map (fun t => t.name)).Nodup →
    ∀ f ∈ ts,
      ({ f with status := some ArchStatus.old } ∈ (cacheFold db ts).2 ∧
        ∃ c, selectDB (cacheFold db ts).1 f.name = some c ∧ beqTarget c f = true) ∨
      (f ∈ (cacheFold db ts).2 ∧ dbNoName (cacheFold db ts).1 f.name)
  | [], _, _, f, hf => absurd hf (by simp)
  | t :: ts, db, hnd, f, hf => by
    have hnd' : (ts.map (fun t => t.name)).Nodup := (List.nodup_cons.mp hnd).2
    have hne : ∀ g ∈ ts, ¬ g.name = t.name := by
      intro g hg he
      have h1 : t.name ∈ List.map (fun t => t.name) ts := by
        rw [← he]
        exact List.mem_map.mpr ⟨g, hg, rfl⟩
      exact (List.nodup_cons.mp (by simpa using hnd)).1 h1
    rw [cacheFold_cons]
    rcases List.mem_cons.mp hf with hf | hf
    · subst hf
      rcases cacheCheck_cases db f with ⟨c, hsel, hbeq, heq⟩ | heq

      · left
        rw [heq]
        refine ⟨List.mem_cons_self _ _, c, ?_, hbeq⟩
        rw [cacheFold_sel_frame ts db f.name hne]
        exact hsel
      · right
        rw [heq]
        exact ⟨List.mem_cons_self _ _,
          cacheFold_noName ts _ f.name (dbNoName_dbDelete_self db f.name)⟩
    · rcases cacheFold_main ts (cacheCheck db t).1 hnd' f hf with ⟨hm, c, hsel, hbeq⟩ | ⟨hm, hnn⟩
      · exact Or.inl ⟨List.mem_cons_of_mem _ hm, c, hsel, hbeq⟩
      · exact Or.inr ⟨List.mem_cons_of_mem _ hm, hnn⟩

theorem cacheFold_all_old : ∀ (ts : List RoseArchTarget) (db : DB),
    (∀ t ∈ ts, ∃ c, selectDB db t.name = some c ∧ beqTarget c t = true) →
    cacheFold db ts = (db, ts.map (fun t => { t with status := some ArchStatus.old }))
  | [], _, _ => rfl
  | t :: ts, db, h => by
    rcases h t (List.mem_cons_self t ts) with ⟨c, hsel, hbeq⟩
    have hcc : cacheCheck db t = (db, { t with status := some ArchStatus.old }) := by
      unfold cacheCheck
      rw [hsel]
      simp [hbeq]
    rw [cacheFold_cons, hcc]
    simp only
    rw [cacheFold_all_old ts db (fun g hg => h g (List.mem_cons_of_mem t hg))]
    simp

/-! ## Resolution-list lemmas -/

theorem resolveList_inv {w : World} {cfg : Config} :
    ∀ {es : List (String × ConfNode)} {tails : List String}
      {fs : List (String × RoseArchTarget)},
      resolveList w cfg es tails = .ok fs →
      (∀ p ∈ fs, freshInv p.2) ∧ (fs.map (fun p => p.1)).Nodup ∧
        (∀ p ∈ fs, p.1 ∉ tails) := by
  intro es
  induction es with
  | nil =>
    intro tails fs h
    cases h
    exact ⟨by simp, by simp, by simp⟩
  | cons e es ih =>
    intro tails fs h
    unfold resolveList at h
    rcases e with ⟨k, nd⟩
    cases hrt : resolveTail w k nd with
    | error er => rw [hrt] at h; cases h
    | ok o =>
      rw [hrt] at h
      cases o with
      | none => exact ih h
      | some p =>
        rcases p with ⟨tl, isC⟩
        dsimp only at h
        split at h
        · cases h
        · next hcont =>
          cases hst : runTargetSetup w cfg tl nd isC with
          | error er => rw [hst] at h; cases h
          | ok t =>
            rw [hst] at h
            cases hrl : resolveList w cfg es (tl :: tails) with
            | error er => rw [hrl] at h; simp only [Except.map] at h; cases h
            | ok fs' =>
              rw [hrl] at h
              simp only [Except.map] at h
              cases h
              rcases ih hrl with ⟨hinv, hnd, hnotin⟩
              refine ⟨?_, ?_, ?_⟩
              · intro p hp
                rcases List.mem_cons.mp hp with hp | hp
                · subst hp; exact runTargetSetup_inv hst
                · exact hinv p hp
              · simp only [List.map_cons]
                refine List.Nodup.cons ?_ hnd
                intro hmem
                rcases List.mem_map.mp hmem with ⟨q, hq, hqe⟩
                exact hnotin q hq (hqe ▸ List.mem_cons_self tl tails)
              · intro p hp
                rcases List.mem_cons.mp hp with hp | hp
                · subst hp
                  intro hmem
                  exact hcont (List.contains_iff_exists_mem_beq.mpr ⟨tl, hmem, by simp⟩)
                · intro hmem
                  exact hnotin p hp (List.mem_cons_of_mem tl hmem)

theorem phase1_resolveList_ok {w : World} {cfg : Config} :
    ∀ {es : List (String × ConfNode)} {tails : List String}
      {fs : List (String × RoseArchTarget)} (db : DB),
      resolveList w cfg es tails = .ok fs →
      phase1 w cfg es db tails =
        ((cacheFold db (fs.map (fun p => p.2))).1,
          .ok (cacheFold db (fs.map (fun p => p.2))).2) := by
  intro es
  induction es with
  | nil =>
    intro tails fs db h
    cases h
    rfl
  | cons e es ih =>
    intro tails fs db h
    unfold resolveList at h
    unfold phase1
    rcases e with ⟨k, nd⟩
    cases hrt : resolveTail w k nd with
    | error er => rw [hrt] at h; dsimp only at h; cases h
    | ok o =>
      rw [hrt] at h
      cases o with
      | none =>
        dsimp only at h ⊢
        exact ih db h
      | some p =>
        rcases p with ⟨tl, isC⟩
        dsimp only at h ⊢
        split at h
        · cases h
        · next hcont =>
          rw [if_neg hcont]
          cases hst : runTargetSetup w cfg tl nd isC with
          | error er => rw [hst] at h; dsimp only at h; cases h
          | ok t =>
            rw [hst] at h
            dsimp only at h ⊢
            simp only [Except.map] at h
            cases hrl : resolveList w cfg es (tl :: tails) with
            | error er => rw [hrl] at h; cases h
            | ok fs' =>
              rw [hrl] at h
              cases h
              try dsimp only
              rw [ih (cacheCheck db t).1 hrl]
              simp only [List.map_cons, cacheFold_cons]

theorem phase1_resolveList_err {w : World} {cfg : Config} :
    ∀ {es : List (String × ConfNode)} {tails : List String} {er : Err} (db : DB),
      resolveList w cfg es tails = .error er →
      ∃ d, phase1 w cfg es db tails = (d, .error er) := by
  intro es
  induction es with
  | nil => intro tails er db h; cases h
  | cons e es ih =>
    intro tails er db h
    unfold resolveList at h
    unfold phase1
    rcases e with ⟨k, nd⟩
    cases hrt : resolveTail w k nd with
    | error er' =>
      rw [hrt] at h
      dsimp only at h ⊢
      cases h
      exact ⟨db, rfl⟩
    | ok o =>
      rw [hrt] at h
      cases o with
      | none =>
        dsimp only at h ⊢
        exact ih db h
      | some p =>
        rcases p with ⟨tl, isC⟩
        dsimp only at h ⊢
        split at h
        · next hcont =>
          cases h
          rw [if_pos hcont]
          exact ⟨db, rfl⟩
        · next hcont =>
          rw [if_neg hcont]
          cases hst : runTargetSetup w cfg tl nd isC with
          | error er' =>
            rw [hst] at h
            dsimp only at h ⊢
            cases h
            exact ⟨db, rfl⟩
          | ok t =>
            rw [hst] at h
            dsimp only at h ⊢
            simp only [Except.map] at h
            cases hrl : resolveList w cfg es (tl :: tails) with
            | error er' =>
              rw [hrl] at h
              cases h
              rcases ih (cacheCheck db t).1 hrl with ⟨d, hd⟩
              try dsimp only
              rw [hd]
              exact ⟨d, rfl⟩
            | ok fs' =>
              rw [hrl] at h
              cases h

/-! ## Update-phase lemmas -/

theorem stageSources_ok_shape {w : World} {t t' : RoseArchTarget} {cmds : List Cmd}
    (h : stageSources w t = (cmds, .ok t')) : ∃ srcs, t' = { t with sources := srcs } := by
  unfold stageSources at h
  dsimp only at h
  split at h
  · cases hsf : stageFold w t.sourceEditFormat t.sources with
    | mk c r =>
      rw [hsf] at h
      cases r with
      | error e => simp at h
      | ok srcs =>
        simp only [Prod.mk.injEq] at h
        rcases h with ⟨_, h2⟩
        cases h2
        exact ⟨srcs, rfl⟩
  · simp only [Prod.mk.injEq] at h
    rcases h with ⟨_, h2⟩
    cases h2
    exact ⟨t.sources, rfl⟩

theorem runTargetUpdate_old {w : World} {db : DB} {t : RoseArchTarget}
    (h : t.status = some ArchStatus.old) : runTargetUpdate w db t = (db, [], .ok t) := by
  unfold runTargetUpdate
  rw [h]

theorem runTargetUpdate_badnull {w : World} {db : DB} {t : RoseArchTarget} :
    (t.status = some ArchStatus.bad →
      runTargetUpdate w db t = (db, [], .ok { t with commandRc := 1 })) ∧
    (t.status = some ArchStatus.null →
      runTargetUpdate w db t = (db, [], .ok { t with commandRc := 0 })) := by
  constructor <;> (intro h; unfold runTargetUpdate; rw [h])

/-- Full characterisation of the execution branch when it completes. -/
theorem execPending_ok {w : World} {db db' : DB} {t t' : RoseArchTarget} {cmds : List Cmd}
    (h : execPending w db t = (db', cmds, .ok t')) :
    ∃ dbA, dbInsert db { t with commandRc := 1 } = .ok dbA ∧
      t'.name = t.name ∧
      db' = dbUpdateRc dbA t' ∧
      (∃ s, Cmd.archive s ∈ cmds) ∧
      ((t'.status = some ArchStatus.new ∧ t'.commandRc = 0) ∨
        (t'.status = some ArchStatus.bad ∧ ¬ t'.commandRc = 0)) := by
  unfold execPending at h
  dsimp only at h
  cases hins : dbInsert db { t with commandRc := 1 } with
  | error e => rw [hins] at h; simp at h
  | ok dbA =>
    rw [hins] at h
    dsimp only at h
    cases hss : stageSources w
        { t with commandRc := 1, status := some ArchStatus.bad } with
    | mk scmds sres =>
      rw [hss] at h
      cases sres with
      | error e => simp at h
      | ok t3 =>
        dsimp only at h
        rcases stageSources_ok_shape hss with ⟨srcs, ht3⟩
        subst ht3
        split at h
        · next hfmt => simp at h
        · next cmd hfmt =>
          simp only [Prod.mk.injEq] at h
          rcases h with ⟨hdb, hcmds, hok⟩
          cases hok
          refine ⟨dbA, rfl, ?_, hdb.symm, ?_, ?_⟩
          · split <;> (first | rfl | (split <;> rfl))
          · exact ⟨cmd, by rw [← hcmds]; simp⟩
          · cases hrc : (w.runCmd cmd).1 == 0 with
            | true =>
              left
              have h0 : (w.runCmd cmd).1 = 0 := beq_iff_eq.mp hrc
              simp [hrc, h0]
            | false =>
              right
              have h0 : ¬ (w.runCmd cmd).1 = 0 := by
                intro he
                rw [he] at hrc
                simp at hrc
              refine ⟨?_, ?_⟩
              · simp only [hrc, Bool.false_eq_true, if_false]
                split <;> rfl
              · simpa using h0

theorem execPending_err_db {w : World} {db db' : DB} {t : RoseArchTarget}
    {cmds : List Cmd} {e : Err} (h : execPending w db t = (db', cmds, .error e)) :
    db' = db ∨ dbInsert db { t with commandRc := 1 } = .ok db' := by
  unfold execPending at h
  dsimp only at h
  cases hins : dbInsert db { t with commandRc := 1 } with
  | error e' =>
    rw [hins] at h
    simp only [Prod.mk.injEq] at h
    exact Or.inl h.1.symm
  | ok dbA =>
    rw [hins] at h
    dsimp only at h
    cases hss : stageSources w { t with commandRc := 1, status := some ArchStatus.bad } with
    | mk scmds sres =>
      rw [hss] at h
      cases sres with
      | error e2 =>
        simp only [Prod.mk.injEq] at h
        right
        rw [← h.1]
      | ok t3 =>
        dsimp only at h
        split at h
        · simp only [Prod.mk.injEq] at h
          right
          rw [← h.1]
        · simp only [Prod.mk.injEq] at h
          exact absurd h.2.2 (by simp)

theorem execPending_frame {w : World} {db db' : DB} {t : RoseArchTarget} {cmds : List Cmd}
    {r : Except Err RoseArchTarget} {n : String}
    (h : execPending w db t = (db', cmds, r)) (hn : ¬ n = t.name) :
    selectDB db' n = selectDB db n ∧ (dbNoName db n → dbNoName db' n) := by
  cases r with
  | ok t' =>
    rcases execPending_ok h with ⟨dbA, hins, hname, hdb, -, -⟩
    subst hdb
    have h1 := selectDB_dbInsert_ne hins hn
    have hnt' : ¬ n = t'.name := by rw [hname]; exact hn
    constructor
    · rw [selectDB_dbUpdateRc_ne hnt', h1]
    · intro hx
      exact dbNoName_dbUpdateRc (dbNoName_dbInsert_ne hins hn hx)
  | error e =>
    rcases execPending_err_db h with he | hins
    · subst he
      exact ⟨rfl, id⟩
    · exact ⟨selectDB_dbInsert_ne hins hn, fun hx => dbNoName_dbInsert_ne hins hn hx⟩

theorem runTargetUpdate_pending {w : World} {db : DB} {t : RoseArchTarget}
    (h : t.status = none) : runTargetUpdate w db t = execPending w db t := by
  unfold runTargetUpdate
  rw [h]

theorem runTargetUpdate_frame {w : World} {db db' : DB} {t : RoseArchTarget}
    {cmds : List Cmd} {r : Except Err RoseArchTarget} {n : String}
    (h : runTargetUpdate w db t = (db', cmds, r)) (hn : ¬ n = t.name) :
    selectDB db' n = selectDB db n ∧ (dbNoName db n → dbNoName db' n) := by
  unfold runTargetUpdate at h
  cases hst : t.status with
  | none =>
    rw [hst] at h
    exact execPending_frame h hn
  | some s =>
    cases s with
    | old =>
      rw [hst] at h
      dsimp only at h
      simp only [Prod.mk.injEq] at h
      rw [← h.1]
      exact ⟨rfl, id⟩
    | bad =>
      rw [hst] at h
      dsimp only at h
      simp only [Prod.mk.injEq] at h
      rw [← h.1]
      exact ⟨rfl, id⟩
    | null =>
      rw [hst] at h
      dsimp only at h
      simp only [Prod.mk.injEq] at h
      rw [← h.1]
      exact ⟨rfl, id⟩
    | new =>
      rw [hst] at h
      exact execPending_frame h hn

theorem runTargetUpdate_name {w : World} {db db' : DB} {t t' : RoseArchTarget}
    {cmds : List Cmd} (h : runTargetUpdate w db t = (db', cmds, .ok t')) :
    t'.name = t.name := by
  unfold runTargetUpdate at h
  cases hst : t.status with
  | none =>
    rw [hst] at h
    exact (execPending_ok h).choose_spec.2.1
  | some s =>
    cases s with
    | old =>
      rw [hst] at h
      dsimp only at h
      simp only [Prod.mk.injEq] at h
      injection h.2.2 with h3
      rw [← h3]
    | bad =>
      rw [hst] at h
      dsimp only at h
      simp only [Prod.mk.injEq] at h
      injection h.2.2 with h3
      rw [← h3]
    | null =>
      rw [hst] at h
      dsimp only at h
      simp only [Prod.mk.injEq] at h
      injection h.2.2 with h3
      rw [← h3]
    | new =>
      rw [hst] at h
      exact (execPending_ok h).choose_spec.2.1

theorem cachedOf_set_rc (t : RoseArchTarget) (x y : Int) :
    ({ cachedOf { t with commandRc := x } with commandRc := y } : RoseArchTarget) =
      cachedOf { t with commandRc := y } := rfl

theorem execPending_sel {w : World} {db db' : DB} {t t' : RoseArchTarget} {cmds : List Cmd}
    (h : execPending w db t = (db', cmds, .ok t'))
    (hnn : dbNoName db t.name) (hs : srcKeysSorted t.sources) :
    selectDB db' t.name = some (cachedOf { t with commandRc := t'.commandRc }) := by
  rcases execPending_ok h with ⟨dbA, hins, hname, hdb, -, -⟩
  subst hdb
  have hsel : selectDB dbA ({ t with commandRc := 1 } : RoseArchTarget).name =
      some (cachedOf { t with commandRc := 1 }) :=
    @selectDB_after_insert db dbA { t with commandRc := 1 } hnn hs hins
  exact selectDB_dbUpdateRc_self hsel hname

/-! ## Update-loop lemmas -/

theorem updatePhase_cons_ok {w : World} {db db' : DB} {t : RoseArchTarget}
    {ts : List RoseArchTarget} {cmds : List Cmd} {ts' : List RoseArchTarget}
    (h : updatePhase w db (t :: ts) = (db', cmds, .ok ts')) :
    ∃ db₁ c₁ t' c₂ ts₂, runTargetUpdate w db t = (db₁, c₁, .ok t') ∧
      updatePhase w db₁ ts = (db', c₂, .ok ts₂) ∧ cmds = c₁ ++ c₂ ∧ ts' = t' :: ts₂ := by
  unfold updatePhase at h
  rcases hru : runTargetUpdate w db t with ⟨db₁, c₁, r⟩
  rw [hru] at h
  cases r with
  | error e => simp at h
  | ok t' =>
    dsimp only at h
    rcases hup : updatePhase w db₁ ts with ⟨db₂, c₂, r₂⟩
    rw [hup] at h
    cases r₂ with
    | error e => simp at h
    | ok ts₂ =>
      simp only [Prod.mk.injEq] at h
      rcases h with ⟨h1, h2, h3⟩
      cases h3
      exact ⟨db₁, c₁, t', c₂, ts₂, rfl, h1 ▸ hup, h2.symm, rfl⟩

theorem updatePhase_all_old {w : World} :
    ∀ (ts : List RoseArchTarget) (db : DB),
      (∀ t ∈ ts, t.status = some ArchStatus.old) →
      updatePhase w db ts = (db, [], .ok ts)
  | [], _, _ => rfl
  | t :: ts, db, h => by
    unfold updatePhase
    rw [runTargetUpdate_old (h t (List.mem_cons_self t ts))]
    dsimp only
    rw [updatePhase_all_old ts db (fun g hg => h g (List.mem_cons_of_mem t hg))]
    rfl

theorem updatePhase_names {w : World} :
    ∀ {ts : List RoseArchTarget} {db db' : DB} {cmds : List Cmd} {ts' : List RoseArchTarget},
      updatePhase w db ts = (db', cmds, .ok ts') →
      ts'.map (fun t => t.name) = ts.map (fun t => t.name) := by
  intro ts
  induction ts with
  | nil => intro db db' cmds ts' h; cases hx : ts' with
    | nil => simp
    | cons a l =>
      unfold updatePhase at h
      simp only [Prod.mk.injEq] at h
      rw [hx] at h
      exact absurd h.2.2 (by simp)
  | cons t ts ih =>
    intro db db' cmds ts' h
    rcases updatePhase_cons_ok h with ⟨db₁, c₁, t', c₂, ts₂, hru, hup, -, hts⟩
    subst hts
    simp only [List.map_cons, ih hup, runTargetUpdate_name hru]

theorem updatePhase_frame {w : World} :
    ∀ {ts : List RoseArchTarget} {db db' : DB} {cmds : List Cmd}
      {r : Except Err (List RoseArchTarget)} {n : String},
      updatePhase w db ts = (db', cmds, r) → (∀ t ∈ ts, ¬ t.name = n) →
      selectDB db' n = selectDB db n ∧ (dbNoName db n → dbNoName db' n) := by
  intro ts
  induction ts with
  | nil =>
    intro db db' cmds r n h _
    unfold updatePhase at h
    simp only [Prod.mk.injEq] at h
    rw [← h.1]
    exact ⟨rfl, id⟩
  | cons t ts ih =>
    intro db db' cmds r n h hn
    unfold updatePhase at h
    rcases hru : runTargetUpdate w db t with ⟨db₁, c₁, r₁⟩
    rw [hru] at h
    have hfr1 := runTargetUpdate_frame hru
      (fun he => hn t (List.mem_cons_self t ts) he.symm)
    cases r₁ with
    | error e =>
      simp only [Prod.mk.injEq] at h
      rw [← h.1]
      exact hfr1
    | ok t' =>
      dsimp only at h
      rcases hup : updatePhase w db₁ ts with ⟨db₂, c₂, r₂⟩
      rw [hup] at h
      have hfr2 := ih hup (fun g hg => hn g (List.mem_cons_of_mem t hg))
      have hcomp : selectDB db₂ n = selectDB db n ∧ (dbNoName db n → dbNoName db₂ n) :=
        ⟨hfr2.1.trans hfr1.1, fun hx => hfr2.2 (hfr1.2 hx)⟩
      cases r₂ with
      | error e =>
        simp only [Prod.mk.injEq] at h
        rw [← h.1]
        exact hcomp
      | ok ts₂ =>
        simp only [Prod.mk.injEq] at h
        rw [← h.1]
        exact hcomp

theorem updatePhase_keep_old {w : World} :
    ∀ {ts : List RoseArchTarget} {db db' : DB} {cmds : List Cmd}
      {ts' : List RoseArchTarget} {n : String} {c : RoseArchTarget},
      updatePhase w db ts = (db', cmds, .ok ts') →
      (∀ t ∈ ts, t.name = n → t.status = some ArchStatus.old) →
      selectDB db n = some c → selectDB db' n = some c := by
  intro ts
  induction ts with
  | nil =>
    intro db db' cmds ts' n c h _ hsel
    unfold updatePhase at h
    simp only [Prod.mk.injEq] at h
    rw [← h.1]
    exact hsel
  | cons t ts ih =>
    intro db db' cmds ts' n c h hold hsel
    rcases updatePhase_cons_ok h with ⟨db₁, c₁, t', c₂, ts₂, hru, hup, -, -⟩
    by_cases hname : t.name = n
    · have hst := hold t (List.mem_cons_self t ts) hname
      rw [runTargetUpdate_old hst] at hru
      simp only [Prod.mk.injEq] at hru
      rw [← hru.1] at hup
      exact ih hup (fun g hg => hold g (List.mem_cons_of_mem t hg)) hsel
    · have hfr := runTargetUpdate_frame hru (fun he => hname he.symm)
      exact ih hup (fun g hg => hold g (List.mem_cons_of_mem t hg)) (hfr.1.symm ▸ hsel)

theorem updatePhase_exec {w : World} :
    ∀ {ts : List RoseArchTarget} {db db' : DB} {cmds : List Cmd}
      {ts' : List RoseArchTarget} {f : RoseArchTarget},
      (ts.map (fun t => t.name)).Nodup → f ∈ ts → f.status = none →
      dbNoName db f.name → srcKeysSorted f.sources →
      updatePhase w db ts = (db', cmds, .ok ts') →
      ∃ t' ∈ ts', t'.name = f.name ∧
        ((t'.status = some ArchStatus.new ∧ t'.commandRc = 0 ∧
            selectDB db' f.name = some (cachedOf { f with commandRc := 0 })) ∨
          t'.status = some ArchStatus.bad) := by
  intro ts
  induction ts with
  | nil => intro _ _ _ _ _ hf; cases hf; simp_all
  | cons t ts ih =>
    intro db db' cmds ts' f hnd hf hst hnn hs h
    rcases updatePhase_cons_ok h with ⟨db₁, c₁, t', c₂, ts₂, hru, hup, -, hts⟩
    subst hts
    rcases List.mem_cons.mp hf with hf | hf
    · subst hf
      rw [runTargetUpdate_pending hst] at hru
      rcases execPending_ok hru with ⟨dbA, -, hname, -, -, hstat⟩
      have hsel := execPending_sel hru hnn hs
      refine ⟨t', List.mem_cons_self t' ts₂, hname, ?_⟩
      rcases hstat with ⟨hnew, hrc⟩ | ⟨hbad, -⟩
      · left
        refine ⟨hnew, hrc, ?_⟩
        have hne : ∀ g ∈ ts, ¬ g.name = f.name := by
          intro g hg he
          have h1 : f.name ∈ List.map (fun t => t.name) ts := by
            rw [← he]
            exact List.mem_map.mpr ⟨g, hg, rfl⟩
          exact (List.nodup_cons.mp (by simpa using hnd)).1 h1
        rw [(updatePhase_frame hup hne).1, hsel, hrc]
      · right
        exact hbad
    · have hne : ¬ t.name = f.name := by
        intro he
        have h1 : t.name ∈ List.map (fun t => t.name) ts := by
          rw [he]
          exact List.mem_map.mpr ⟨f, hf, rfl⟩
        exact (List.nodup_cons.mp (by simpa using hnd)).1 h1
      have hfr := runTargetUpdate_frame hru (fun he => hne he.symm)
      rcases ih (by simpa using (List.nodup_cons.mp (by simpa using hnd)).2) hf hst
          (hfr.2 hnn) hs hup with ⟨g', hg', hgn, hcase⟩
      exact ⟨g', List.mem_cons_of_mem t' hg', hgn, hcase⟩

theorem count_bad_zero {ts : List RoseArchTarget}
    (h : ∀ t ∈ ts, t.status = some ArchStatus.old) :
    ((ts.map (fun t => t.status)).count (some ArchStatus.bad)) = 0 := by
  rw [List.count_eq_zero]
  intro hmem
  rcases List.mem_map.mp hmem with ⟨t, ht, he⟩
  rw [h t ht] at he
  cases he

theorem updatePhase_member {w : World} :
    ∀ {ts : List RoseArchTarget} {db db' : DB} {cmds : List Cmd}
      {ts' : List RoseArchTarget} {f : RoseArchTarget},
      updatePhase w db ts = (db', cmds, .ok ts') → f ∈ ts →
      ∃ t' ∈ ts', t'.name = f.name ∧
        (f.status = some ArchStatus.bad → t'.status = some ArchStatus.bad) ∧
        (f.status = some ArchStatus.null → t'.status = some ArchStatus.null) := by
  intro ts
  induction ts with
  | nil => intro _ _ _ _ _ _ hf; cases hf
  | cons t ts ih =>
    intro db db' cmds ts' f h hf
    rcases updatePhase_cons_ok h with ⟨db₁, c₁, t', c₂, ts₂, hru, hup, -, hts⟩
    subst hts
    rcases List.mem_cons.mp hf with hf | hf
    · subst hf
      refine ⟨t', List.mem_cons_self t' ts₂, runTargetUpdate_name hru, ?_, ?_⟩
      · intro hb
        rw [runTargetUpdate_badnull.1 hb] at hru
        simp only [Prod.mk.injEq] at hru
        injection hru.2.2 with h3
        rw [← h3]
        exact hb
      · intro hb
        rw [runTargetUpdate_badnull.2 hb] at hru
        simp only [Prod.mk.injEq] at hru
        injection hru.2.2 with h3
        rw [← h3]
        exact hb
    · rcases ih hup hf with ⟨g', hg', hcond⟩
      exact ⟨g', List.mem_cons_of_mem t' hg', hcond⟩

/-- A target equals itself with its recorded `command_rc` written back. -/
theorem target_eta_rc {t : RoseArchTarget} {x : Int} (h : t.commandRc = x) :
    ({ t with commandRc := x } : RoseArchTarget) = t := by
  cases t
  simp only at h
  rw [← h]

/-- Decomposition of a completed `_run` into its phases. -/
theorem runArch_ok_parts {w : World} {cfg : Config} {db db' : DB} {cmds : List Cmd}
    {ts : List RoseArchTarget} {n : Nat}
    (h : runArch w cfg db = (db', cmds, .ok (ts, n))) :
    ∃ (fs : List (String × RoseArchTarget)),
      resolveList w cfg (List.insertionSort keyLe cfg.entries) [] = .ok fs ∧
      updatePhase w
        (dbDeleteAll (cacheFold db (fs.map (fun p => p.2))).1
          ((List.insertionSort nameLe (cacheFold db (fs.map (fun p => p.2))).2).map
            (fun t => t.name)))
        (List.insertionSort nameLe (cacheFold db (fs.map (fun p => p.2))).2) =
        (db', cmds, .ok ts) ∧
      n = (ts.map (fun t => t.status)).count (some ArchStatus.bad) := by
  unfold runArch at h
  dsimp only at h
  rcases hp : phase1 w cfg (List.insertionSort keyLe cfg.entries) db [] with ⟨db1, r1⟩
  rw [hp] at h
  cases r1 with
  | error e => simp at h
  | ok ms =>
    dsimp only at h
    cases hrl : resolveList w cfg (List.insertionSort keyLe cfg.entries) [] with
    | error er =>
      rcases phase1_resolveList_err db hrl with ⟨d, hd⟩
      rw [hp] at hd
      simp at hd
    | ok fs =>
      have hcorr := phase1_resolveList_ok db hrl
      rw [hp] at hcorr
      simp only [Prod.mk.injEq] at hcorr
      rcases hcorr with ⟨hdb1, hms⟩
      injection hms with hms
      subst hdb1
      subst hms
      rcases hu : updatePhase w
          (dbDeleteAll (cacheFold db (fs.map (fun p => p.2))).1
            ((List.insertionSort nameLe (cacheFold db (fs.map (fun p => p.2))).2).map
              (fun t => t.name)))
          (List.insertionSort nameLe (cacheFold db (fs.map (fun p => p.2))).2) with
        ⟨db2, cmds2, r2⟩
      rw [hu] at h
      cases r2 with
      | error e => simp at h
      | ok fts =>
        simp only [Prod.mk.injEq] at h
        rcases h with ⟨h1, h2, h3⟩
        injection h3 with h3
        injection h3 with h3a h3b
        subst h1
        subst h2
        subst h3a
        subst h3b
        exact ⟨fs, rfl, hu, rfl⟩

/-- C1 (amended): if a run of the orchestrator completes with every target
OLD or NEW and the resolved target names are pairwise distinct, then a second
run with the same configuration and unchanged external world marks every
target OLD and executes no command at all. -/
theorem c1_second_run_all_old (w : World) (cfg : Config) (db0 db1 : DB)
    (log1 : List Cmd) (ts1 : List RoseArchTarget) (n1 : Nat)
    (h1 : runArch w cfg db0 = (db1, log1, .ok (ts1, n1)))
    (hok : ∀ t ∈ ts1, t.status = some ArchStatus.old ∨ t.status = some ArchStatus.new)
    (hnd : (ts1.map (fun t => t.name)).Nodup) :
    ∃ db2 ts2, runArch w cfg db1 = (db2, [], .ok (ts2, 0)) ∧
      ∀ t ∈ ts2, t.status = some ArchStatus.old := by
  rcases runArch_ok_parts h1 with ⟨fs, hrl, hup, -⟩
  have hperm : List.Perm
      (List.insertionSort nameLe (cacheFold db0 (fs.map (fun p => p.2))).2)
      (cacheFold db0 (fs.map (fun p => p.2))).2 :=
    List.perm_insertionSort nameLe _
  have hnames1 : ts1.map (fun t => t.name) =
      (List.insertionSort nameLe (cacheFold db0 (fs.map (fun p => p.2))).2).map
        (fun t => t.name) := updatePhase_names hup
  have hndsorted : ((List.insertionSort nameLe (cacheFold db0 (fs.map (fun p => p.2))).2).map
      (fun t => t.name)).Nodup := hnames1 ▸ hnd
  have hndms : (((cacheFold db0 (fs.map (fun p => p.2))).2).map (fun t => t.name)).Nodup :=
    (hperm.map (fun t => t.name)).nodup hndsorted
  have hndfsT : ((fs.map (fun p => p.2)).map (fun t => t.name)).Nodup := by
    rw [← cacheFold_names (fs.map (fun p => p.2)) db0]
    exact hndms
  have hinv : ∀ f ∈ fs.map (fun p => p.2), freshInv f := by
    intro f hf
    rcases List.mem_map.mp hf with ⟨p, hp, he⟩
    exact he ▸ (resolveList_inv hrl).1 p hp
  have hsel : ∀ f ∈ fs.map (fun p => p.2),
      ∃ c, selectDB db1 f.name = some c ∧ beqTarget c f = true := by
    intro f hf
    rcases cacheFold_main (fs.map (fun p => p.2)) db0 hndfsT f hf with
      ⟨hmem, c, hselP, hbeq⟩ | ⟨hmem, hnn⟩
    · have hmem2 : ({ f with status := some ArchStatus.old } : RoseArchTarget) ∈
          List.insertionSort nameLe (cacheFold db0 (fs.map (fun p => p.2))).2 :=
        hperm.mem_iff.mpr hmem
      have hfname : f.name ∈ (List.insertionSort nameLe
          (cacheFold db0 (fs.map (fun p => p.2))).2).map (fun t => t.name) :=
        List.mem_map.mpr ⟨_, hmem2, rfl⟩
      have hsel2 : selectDB (dbDeleteAll (cacheFold db0 (fs.map (fun p => p.2))).1
          ((List.insertionSort nameLe (cacheFold db0 (fs.map (fun p => p.2))).2).map
            (fun t => t.name))) f.name = some c := by
        rw [selectDB_dbDeleteAll_mem hfname]
        exact hselP
      have hallold : ∀ g ∈ List.insertionSort nameLe
          (cacheFold db0 (fs.map (fun p => p.2))).2, g.name = f.name →
          g.status = some ArchStatus.old := by
        intro g hg he
        have hgeq : g = { f with status := some ArchStatus.old } :=
          List.inj_on_of_nodup_map hndsorted hg hmem2 he
        rw [hgeq]
      exact ⟨c, updatePhase_keep_old hup hallold hsel2, hbeq⟩
    · have hmem2 : f ∈ List.insertionSort nameLe (cacheFold db0 (fs.map (fun p => p.2))).2 :=
        hperm.mem_iff.mpr hmem
      have hfr := hinv f hf
      rcases updatePhase_member hup hmem2 with ⟨t', ht', htn, hbad, hnull⟩
      have hstat : f.status = none := by
        cases hstf : f.status with
        | none => rfl
        | some s =>
          cases s with
          | old => exact absurd hstf hfr.2.2.2.1
          | new => exact absurd hstf hfr.2.2.2.2
          | bad =>
            rcases hok t' ht' with ho | ho <;> rw [hbad hstf] at ho <;> cases ho
          | null =>
            rcases hok t' ht' with ho | ho <;> rw [hnull hstf] at ho <;> cases ho
      have hnn2 : dbNoName (dbDeleteAll (cacheFold db0 (fs.map (fun p => p.2))).1
          ((List.insertionSort nameLe (cacheFold db0 (fs.map (fun p => p.2))).2).map
            (fun t => t.name))) f.name := dbNoName_dbDeleteAll hnn _
      rcases updatePhase_exec hndsorted hmem2 hstat hnn2 hfr.2.1 hup with
        ⟨t'', ht'', -, hcase⟩
      rcases hcase with ⟨-, -, hselF⟩ | hbad2
      · refine ⟨cachedOf f, ?_, beqTarget_cachedOf hfr.2.2.1⟩
        rw [hselF, target_eta_rc hfr.1]
      · rcases hok t'' ht'' with ho | ho <;> rw [hbad2] at ho <;> cases ho
  have hfold2 := cacheFold_all_old (fs.map (fun p => p.2)) db1 hsel
  have hallold2 : ∀ t ∈ List.insertionSort nameLe
      ((fs.map (fun p => p.2)).map (fun t => { t with status := some ArchStatus.old })),
      t.status = some ArchStatus.old := by
    intro t ht
    rcases List.mem_map.mp ((List.mem_insertionSort nameLe).mp ht) with ⟨g, -, he⟩
    rw [← he]
  refine ⟨dbDeleteAll db1 ((List.insertionSort nameLe
      ((fs.map (fun p => p.2)).map (fun t => { t with status := some ArchStatus.old }))).map
      (fun t => t.name)), _, ?_, hallold2⟩
  unfold runArch
  dsimp only
  rw [phase1_resolveList_ok db1 hrl, hfold2]
  dsimp only
  rw [updatePhase_all_old _ _ hallold2]
  dsimp only
  rw [count_bad_zero hallold2]

/-- Witness for the amended idempotence theorem at the `cfgDemo` fixture. -/
theorem c1_witness :
    ∃ db2 ts2, runArch wDemo cfgDemo dbDemo1 = (db2, [], .ok (ts2, 0)) ∧
      ∀ t ∈ ts2, t.status = some ArchStatus.old :=
  c1_second_run_all_old wDemo cfgDemo emptyDB dbDemo1 [Cmd.archive "cp s.txt t.tar"]
    [tC8ok] 0 (by decide) (by decide) (by decide)

/-- Counterexample to the frozen idempotence claim: the `cfgBad` run completes
(returning BAD count 1), yet on the second run with configuration and world
unchanged its target is again BAD, not OLD. -/
theorem c1_counterexample :
    statusesOf (runArch wDemo cfgBad emptyDB) = some ([some ArchStatus.bad], 1) ∧
    statusesOf (runArch wDemo cfgBad (runArch wDemo cfgBad emptyDB).1) =
      some ([some ArchStatus.bad], 1) := by decide

/-! ## The Python equality against the specification's field list -/

theorem beqTarget_not_targetsDiffer (c t : RoseArchTarget) :
    beqTarget c t = !(targetsDiffer c t) := by
  unfold beqTarget targetsDiffer
  cases c.name == t.name <;> cases c.compressScheme == t.compressScheme <;>
    cases c.commandFormat == t.commandFormat <;> cases c.commandRc == t.commandRc <;>
    cases beqSources c.sources t.sources <;>
    cases c.sourceEditFormat == t.sourceEditFormat <;> rfl

/-- C2 (amended): with a same-named cached entry `c`, the cache comparison
purges the rows for the name exactly when the specification's field list
reports a difference, and marks the target OLD keeping the cache when it
does not; a target reaching the update step still unexecuted (status `none`)
that completes has run its archive command — but a differing target already
resolved BAD at setup is purged without any command being run. -/
theorem c2_change_detection (w : World) (db : DB) (t c : RoseArchTarget)
    (hsel : selectDB db t.name = some c) :
    (targetsDiffer c t = true → cacheCheck db t = (dbDelete db t.name, t)) ∧
    (targetsDiffer c t = false →
      cacheCheck db t = (db, { t with status := some ArchStatus.old })) ∧
    (∀ db₁ db₂ cmds t', t.status = none →
      runTargetUpdate w db₁ t = (db₂, cmds, .ok t') → ∃ s, Cmd.archive s ∈ cmds) := by
  refine ⟨?_, ?_, ?_⟩
  · intro hd
    have hb : beqTarget c t = false := by
      rw [beqTarget_not_targetsDiffer, hd]
      rfl
    unfold cacheCheck
    rw [hsel]
    dsimp only
    rw [hb]
    simp
  · intro hd
    have hb : beqTarget c t = true := by
      rw [beqTarget_not_targetsDiffer, hd]
      rfl
    unfold cacheCheck
    rw [hsel]
    dsimp only
    rw [hb]
    simp
  · intro db₁ db₂ cmds t' hst h
    rw [runTargetUpdate_pending hst] at h
    rcases execPending_ok h with ⟨-, -, -, -, hcmd, -⟩
    exact hcmd

/-- Witness for the change-detection theorem: a differing cached entry is
purged, an equal one marks the target OLD, and a completed pending update
has issued its archive command. -/
theorem c2_witness :
    cacheCheck dbDemo1 tFreshC2 = (dbDelete dbDemo1 tFreshC2.name, tFreshC2) ∧
    cacheCheck dbDemo1 tC8 = (dbDemo1, { tC8 with status := some ArchStatus.old }) ∧
    (∃ s, Cmd.archive s ∈ ([Cmd.archive "cp s.txt t.tar"] : List Cmd)) :=
  ⟨(c2_change_detection wDemo dbDemo1 tFreshC2 (cachedOf tC8) (by decide)).1 (by decide),
    (c2_change_detection wDemo dbDemo1 tC8 (cachedOf tC8) (by decide)).2.1 (by decide),
    (c2_change_detection wDemo dbDemo1 tC8 (cachedOf tC8) (by decide)).2.2 emptyDB dbDemo1
      [Cmd.archive "cp s.txt t.tar"] tC8ok (by decide) (by decide)⟩

/-- Counterexample to the frozen change-detection claim: the cached `t.tar`
entry differs from the freshly resolved `cfgC2` target in `command_format`,
so by the claim the update step should run its archive command; instead the
run issues no command at all, ends the target BAD and leaves the rows purged. -/
theorem c2_counterexample :
    selectDB dbDemo1 "t.tar" = some (cachedOf tC8) ∧
    resolveList wDemo cfgC2 (List.insertionSort keyLe cfgC2.entries) [] =
      .ok [("t.tar", tFreshC2)] ∧
    targetsDiffer (cachedOf tC8) tFreshC2 = true ∧
    statusesOf (runArch wDemo cfgC2 dbDemo1) = some ([some ArchStatus.bad], 1) ∧
    (runArch wDemo cfgC2 dbDemo1).2.1 = [] ∧
    (runArch wDemo cfgC2 dbDemo1).1 = emptyDB := by decide

/-- C3: the value a completed run returns is the number of targets whose final
status is BAD; in particular it is `0` when no target ends BAD. -/
theorem c3_return_counts_bad {w : World} {cfg : Config} {db db' : DB} {cmds : List Cmd}
    {ts : List RoseArchTarget} {n : Nat}
    (h : runArch w cfg db = (db', cmds, .ok (ts, n))) :
    n = (ts.map (fun t => t.status)).count (some ArchStatus.bad) ∧
    ((∀ t ∈ ts, ¬ t.status = some ArchStatus.bad) → n = 0) := by
  rcases runArch_ok_parts h with ⟨fs, -, hup, hn⟩
  refine ⟨hn, ?_⟩
  intro hnb
  rw [hn, List.count_eq_zero]
  intro hmem
  rcases List.mem_map.mp hmem with ⟨t, ht, he⟩
  exact hnb t ht he

/-- Witness for the BAD-count theorem: the optional empty `cfgOpt` target ends
NULL and the run returns 0. -/
theorem c3_witness :
    (0 = ([tOptNull].map (fun t => t.status)).count (some ArchStatus.bad)) ∧
    ((∀ t ∈ [tOptNull], ¬ t.status = some ArchStatus.bad) → 0 = 0) :=
  @c3_return_counts_bad wDemo cfgOpt emptyDB emptyDB [] [tOptNull] 0 (by decide)

/-! ## Error classes the update loop can raise -/

theorem stageOne_err_kind {w : World} {sefO : Option String} {p : String × RoseArchSource}
    {cmds : List Cmd} {e : Err} (h : stageOne w sefO p = (cmds, .error e)) :
    e = Err.uncaughtFormat ∨ e = Err.popen := by
  unfold stageOne at h
  dsimp only at h
  split at h
  · split at h
    · simp only [Prod.mk.injEq] at h
      injection h.2 with h2
      exact Or.inl h2.symm
    · split at h
      · simp at h
      · simp only [Prod.mk.injEq] at h
        injection h.2 with h2
        exact Or.inr h2.symm
  · simp at h

theorem stageFold_err_kind {w : World} {sefO : Option String} :
    ∀ {ps : List (String × RoseArchSource)} {cmds : List Cmd} {e : Err},
      stageFold w sefO ps = (cmds, .error e) → e = Err.uncaughtFormat ∨ e = Err.popen := by
  intro ps
  induction ps with
  | nil => intro cmds e h; unfold stageFold at h; simp at h
  | cons p ps ih =>
    intro cmds e h
    unfold stageFold at h
    rcases hso : stageOne w sefO p with ⟨c₁, r₁⟩
    rw [hso] at h
    cases r₁ with
    | error e₁ =>
      simp only [Prod.mk.injEq] at h
      injection h.2 with h2
      exact h2 ▸ stageOne_err_kind hso
    | ok p' =>
      dsimp only at h
      rcases hsf : stageFold w sefO ps with ⟨c₂, r₂⟩
      rw [hsf] at h
      cases r₂ with
      | error e₂ =>
        simp only [Prod.mk.injEq] at h
        injection h.2 with h2
        exact h2 ▸ ih hsf
      | ok ps' => simp at h

theorem stageSources_err_kind {w : World} {t : RoseArchTarget} {cmds : List Cmd} {e : Err}
    (h : stageSources w t = (cmds, .error e)) : e = Err.uncaughtFormat ∨ e = Err.popen := by
  unfold stageSources at h
  dsimp only at h
  split at h
  · rcases hsf : stageFold w t.sourceEditFormat t.sources with ⟨c, r⟩
    rw [hsf] at h
    cases r with
    | error e₂ =>
      simp only [Prod.mk.injEq] at h
      injection h.2 with h2
      exact h2 ▸ stageFold_err_kind hsf
    | ok srcs => simp at h
  · simp at h

theorem execPending_err_kind {w : World} {db db' : DB} {t : RoseArchTarget}
    {cmds : List Cmd} {e : Err} (h : execPending w db t = (db', cmds, .error e)) :
    e = Err.integrity ∨ e = Err.uncaughtFormat ∨ e = Err.popen := by
  unfold execPending at h
  dsimp only at h
  cases hins : dbInsert db { t with commandRc := 1 } with
  | error u =>
    rw [hins] at h
    simp only [Prod.mk.injEq] at h
    injection h.2.2 with h2
    exact Or.inl h2.symm
  | ok dbA =>
    rw [hins] at h
    dsimp only at h
    rcases hss : stageSources w { t with commandRc := 1, status := some ArchStatus.bad }
      with ⟨sc, sr⟩
    rw [hss] at h
    cases sr with
    | error e₂ =>
      simp only [Prod.mk.injEq] at h
      injection h.2.2 with h2
      exact Or.inr (h2 ▸ stageSources_err_kind hss)
    | ok t3 =>
      dsimp only at h
      split at h
      · simp only [Prod.mk.injEq] at h
        injection h.2.2 with h2
        exact Or.inr (Or.inl h2.symm)
      · simp at h

theorem runTargetUpdate_err_kind {w : World} {db db' : DB} {t : RoseArchTarget}
    {cmds : List Cmd} {e : Err} (h : runTargetUpdate w db t = (db', cmds, .error e)) :
    e = Err.integrity ∨ e = Err.uncaughtFormat ∨ e = Err.popen := by
  unfold runTargetUpdate at h
  cases hst : t.status with
  | none =>
    rw [hst] at h
    exact execPending_err_kind h
  | some s =>
    cases s with
    | old => rw [hst] at h; simp at h
    | bad => rw [hst] at h; simp at h
    | null => rw [hst] at h; simp at h
    | new => rw [hst] at h; exact execPending_err_kind h

theorem updatePhase_err_kind {w : World} :
    ∀ {ts : List RoseArchTarget} {db db' : DB} {cmds : List Cmd} {e : Err},
      updatePhase w db ts = (db', cmds, .error e) →
      e = Err.integrity ∨ e = Err.uncaughtFormat ∨ e = Err.popen := by
  intro ts
  induction ts with
  | nil => intro db db' cmds e h; unfold updatePhase at h; simp at h
  | cons t ts ih =>
    intro db db' cmds e h
    unfold updatePhase at h
    rcases hru : runTargetUpdate w db t with ⟨db₁, c₁, r₁⟩
    rw [hru] at h
    cases r₁ with
    | error e₁ =>
      simp only [Prod.mk.injEq] at h
      injection h.2.2 with h2
      exact h2 ▸ runTargetUpdate_err_kind hru
    | ok t' =>
      dsimp only at h
      rcases hup : updatePhase w db₁ ts with ⟨db₂, c₂, r₂⟩
      rw [hup] at h
      cases r₂ with
      | error e₂ =>
        simp only [Prod.mk.injEq] at h
        injection h.2.2 with h2
        exact h2 ▸ ih hup
      | ok ts₂ => simp at h

/-- C4 (amended): a duplicate-target configuration error aborts the run with
no command issued; the guarded quantity is the environment-substituted
section-key tail, so a completed resolution has pairwise-distinct tails —
while distinct tails may still yield one final (prefixed) target name. -/
theorem c4_duplicate_tail_rejection (w : World) (cfg : Config) :
    (∀ db db' log k tl,
        runArch w cfg db = (db', log, .error (Err.duplicateTarget k tl)) → log = []) ∧
    (∀ fs, resolveList w cfg (List.insertionSort keyLe cfg.entries) [] = .ok fs →
        (fs.map (fun p => p.1)).Nodup) := by
  constructor
  · intro db db' log k tl h
    unfold runArch at h
    dsimp only at h
    rcases hp1 : phase1 w cfg (List.insertionSort keyLe cfg.entries) db [] with ⟨db1, r1⟩
    rw [hp1] at h
    cases r1 with
    | error e =>
      simp only [Prod.mk.injEq] at h
      exact h.2.1.symm
    | ok ts =>
      dsimp only at h
      rcases hup : updatePhase w
          (dbDeleteAll db1 ((List.insertionSort nameLe ts).map (fun t => t.name)))
          (List.insertionSort nameLe ts) with ⟨db3, cmds, r3⟩
      rw [hup] at h
      cases r3 with
      | error e =>
        simp only [Prod.mk.injEq] at h
        have hkind := updatePhase_err_kind hup
        injection h.2.2 with h2
        rw [h2] at hkind
        rcases hkind with h3 | h3 | h3 <;> cases h3
      | ok fts =>
        simp only [Prod.mk.injEq] at h
        exact absurd h.2.2 (by simp)
  · intro fs h
    exact (resolveList_inv h).2.1

/-- Witness for the duplicate-tail theorem: the duplicate-tail error of
`cfgDupDemo` issues no command, and the completed `cfgDemo` resolution has
pairwise-distinct tails. -/
theorem c4_witness :
    ([] : List Cmd) = [] ∧ (fsDemo.map (fun p => p.1)).Nodup :=
  ⟨(c4_duplicate_tail_rejection wDemo cfgDupDemo).1 emptyDB emptyDB []
      "arch:t.tar" "t.tar" (by decide),
    (c4_duplicate_tail_rejection wDemo cfgDemo).2 fsDemo (by decide)⟩

/-- Counterexample to the frozen duplicate-name claim: under `cfgC4` two
entries resolve to the same final target name `p/x.tar`, yet the run
completes without any duplicate error and executes an archive command. -/
theorem c4_counterexample :
    namesOf (runArch wDemo cfgC4 dbSeed) = some ["p/x.tar", "p/x.tar"] ∧
    ¬ (["p/x.tar", "p/x.tar"] : List String).Nodup ∧
    ¬ (runArch wDemo cfgC4 dbSeed).2.1 = [] := by decide

/-- C5 (amended): a parenthesised source pattern matching zero files leaves
the target unchanged; an unwrapped pattern matching zero files forces BAD
only when the target itself is compulsory, and also leaves an optional
target unchanged. -/
theorem c5_source_pattern_policy (w : World) (upd : Option String) (spfx : String)
    (isCompT : Bool) (t : RoseArchTarget) (tok : String)
    (hempty : w.glob (spfx ++ (tokOptional tok isCompT).1) = []) :
    (chWrapped tok.data = true → procSourceTok w upd spfx isCompT t tok = t) ∧
    (chWrapped tok.data = false →
      procSourceTok w upd spfx isCompT t tok =
        (if isCompT then { t with status := some ArchStatus.bad } else t)) := by
  constructor
  · intro hwr
    have h2 : (tokOptional tok isCompT).2 = false := by
      unfold tokOptional
      rw [hwr]
      simp
    unfold procSourceTok
    rw [hempty, h2]
    simp
  · intro hwr
    have h2 : (tokOptional tok isCompT).2 = isCompT := by
      unfold tokOptional
      rw [hwr]
      simp
    unfold procSourceTok
    rw [hempty, h2]
    cases isCompT <;> simp

/-- Witness for the source-pattern theorem: wrapped-and-missing leaves the
target alone, unwrapped-and-missing forces BAD for a compulsory target and
leaves an optional target alone. -/
theorem c5_witness :
    procSourceTok wDemo none "" true (mkRoseArchTarget "t.tar") "(missing.txt)" =
      mkRoseArchTarget "t.tar" ∧
    procSourceTok wDemo none "" true (mkRoseArchTarget "t.tar") "missing.txt" =
      (if true then { mkRoseArchTarget "t.tar" with status := some ArchStatus.bad }
        else mkRoseArchTarget "t.tar") ∧
    procSourceTok wDemo none "" false (mkRoseArchTarget "t.tar") "missing.txt" =
      (if false then { mkRoseArchTarget "t.tar" with status := some ArchStatus.bad }
        else mkRoseArchTarget "t.tar") :=
  ⟨(c5_source_pattern_policy wDemo none "" true (mkRoseArchTarget "t.tar") "(missing.txt)"
      (by decide)).1 (by decide),
    (c5_source_pattern_policy wDemo none "" true (mkRoseArchTarget "t.tar") "missing.txt"
      (by decide)).2 (by decide),
    (c5_source_pattern_policy wDemo none "" false (mkRoseArchTarget "t.tar") "missing.txt"
      (by decide)).2 (by decide)⟩

/-- Counterexample to the frozen source-pattern claim: `missing.txt` is an
unwrapped (by the claim, required) pattern matching zero files on an optional
target, yet it leaves the target unchanged and the run ends NULL, not BAD. -/
theorem c5_counterexample :
    chWrapped ("missing.txt" : String).data = false ∧
    wDemo.glob "missing.txt" = [] ∧
    procSourceTok wDemo none "" false (mkRoseArchTarget "t.tar") "missing.txt" =
      mkRoseArchTarget "t.tar" ∧
    statusesOf (runArch wDemo cfgOpt emptyDB) = some ([some ArchStatus.null], 0) := by
  decide

/-- C6: zero resolved sources make a compulsory target BAD and an optional one
NULL, and the update step leaves the cache untouched and issues no command for
a BAD or NULL target, recording only the boolean exit code. -/
theorem c6_zero_source_outcome (w : World) (db : DB) (isCompT : Bool) (t : RoseArchTarget) :
    (t.sources = [] → zeroSourceRule isCompT t =
      { t with status := some (if isCompT then ArchStatus.bad else ArchStatus.null) }) ∧
    (t.status = some ArchStatus.bad →
      runTargetUpdate w db t = (db, [], .ok { t with commandRc := 1 })) ∧
    (t.status = some ArchStatus.null →
      runTargetUpdate w db t = (db, [], .ok { t with commandRc := 0 })) := by
  refine ⟨?_, runTargetUpdate_badnull.1, runTargetUpdate_badnull.2⟩
  intro hs
  unfold zeroSourceRule
  rw [hs]
  simp

/-- Witness for the zero-source theorem at a bare compulsory target and at
BAD and NULL targets. -/
theorem c6_witness :
    (zeroSourceRule true (mkRoseArchTarget "t.tar") =
      { mkRoseArchTarget "t.tar" with
        status := some (if true then ArchStatus.bad else ArchStatus.null) }) ∧
    (runTargetUpdate wDemo emptyDB tBadC6 = (emptyDB, [], .ok { tBadC6 with commandRc := 1 })) ∧
    (runTargetUpdate wDemo emptyDB tNullC6 =
      (emptyDB, [], .ok { tNullC6 with commandRc := 0 })) :=
  ⟨(c6_zero_source_outcome wDemo emptyDB true (mkRoseArchTarget "t.tar")).1 (by decide),
    (c6_zero_source_outcome wDemo emptyDB true tBadC6).2.1 (by decide),
    (c6_zero_source_outcome wDemo emptyDB true tNullC6).2.2 (by decide)⟩

/-! ## Row-name containment through the update loop -/

theorem dbDeleteAll_within (db : DB) (names : List String) :
    dbNamesWithin (dbDeleteAll db names) names := by
  unfold dbDeleteAll dbNamesWithin
  split
  · exact ⟨by simp [emptyDB], by simp [emptyDB]⟩
  · constructor
    · intro r hr
      rcases List.any_eq_true.mp (List.mem_filter.mp hr).2 with ⟨n, hn, he⟩
      exact (beq_iff_eq.mp he) ▸ hn
    · intro r hr
      rcases List.any_eq_true.mp (List.mem_filter.mp hr).2 with ⟨n, hn, he⟩
      exact (beq_iff_eq.mp he) ▸ hn

theorem dbInsert_within {db db' : DB} {t : RoseArchTarget} {names : List String}
    (h : dbNamesWithin db names) (hm : t.name ∈ names)
    (hins : dbInsert db t = .ok db') : dbNamesWithin db' names := by
  unfold dbInsert at hins
  split at hins
  · cases hins
  · split at hins
    · cases hins
    · cases hins
      constructor
      · intro r hr
        rcases List.mem_append.mp hr with hr | hr
        · exact h.1 r hr
        · rw [List.mem_singleton.mp hr]
          exact hm
      · intro r hr
        rcases List.mem_append.mp hr with hr | hr
        · exact h.2 r hr
        · rcases List.mem_map.mp hr with ⟨p, -, he⟩
          rw [← he]
          exact hm

theorem dbUpdateRc_within {db : DB} {t : RoseArchTarget} {names : List String}
    (h : dbNamesWithin db names) : dbNamesWithin (dbUpdateRc db t) names := by
  refine ⟨?_, h.2⟩
  intro r hr
  rcases List.mem_map.mp hr with ⟨r0, hr0, he⟩
  have hname : r.name = r0.name := by
    rw [← he]
    split <;> rfl
  rw [hname]
  exact h.1 r0 hr0

theorem execPending_within {w : World} {db db' : DB} {t : RoseArchTarget} {cmds : List Cmd}
    {r : Except Err RoseArchTarget} {names : List String}
    (hw : dbNamesWithin db names) (hm : t.name ∈ names)
    (h : execPending w db t = (db', cmds, r)) : dbNamesWithin db' names := by
  cases r with
  | ok t' =>
    rcases execPending_ok h with ⟨dbA, hins, -, hdb, -, -⟩
    subst hdb
    exact dbUpdateRc_within
      (@dbInsert_within db dbA { t with commandRc := 1 } names hw hm hins)
  | error e =>
    rcases execPending_err_db h with he | hins
    · subst he
      exact hw
    · exact @dbInsert_within db db' { t with commandRc := 1 } names hw hm hins

theorem runTargetUpdate_within {w : World} {db db' : DB} {t : RoseArchTarget}
    {cmds : List Cmd} {r : Except Err RoseArchTarget} {names : List String}
    (hw : dbNamesWithin db names) (hm : t.name ∈ names)
    (h : runTargetUpdate w db t = (db', cmds, r)) : dbNamesWithin db' names := by
  unfold runTargetUpdate at h
  cases hst : t.status with
  | none =>
    rw [hst] at h
    exact execPending_within hw hm h
  | some s =>
    cases s with
    | old =>
      rw [hst] at h
      simp only [Prod.mk.injEq] at h
      rw [← h.1]
      exact hw
    | bad =>
      rw [hst] at h
      dsimp only at h
      simp only [Prod.mk.injEq] at h
      rw [← h.1]
      exact hw
    | null =>
      rw [hst] at h
      dsimp only at h
      simp only [Prod.mk.injEq] at h
      rw [← h.1]
      exact hw
    | new =>
      rw [hst] at h
      exact execPending_within hw hm h

theorem updatePhase_within {w : World} {names : List String} :
    ∀ {ts : List RoseArchTarget} {db db' : DB} {cmds : List Cmd}
      {r : Except Err (List RoseArchTarget)},
      dbNamesWithin db names → (∀ t ∈ ts, t.name ∈ names) →
      updatePhase w db ts = (db', cmds, r) → dbNamesWithin db' names := by
  intro ts
  induction ts with
  | nil =>
    intro db db' cmds r hw _ h
    unfold updatePhase at h
    simp only [Prod.mk.injEq] at h
    rw [← h.1]
    exact hw
  | cons t ts ih =>
    intro db db' cmds r hw hm h
    unfold updatePhase at h
    rcases hru : runTargetUpdate w db t with ⟨db₁, c₁, r₁⟩
    rw [hru] at h
    have hw1 : dbNamesWithin db₁ names :=
      runTargetUpdate_within hw (hm t (List.mem_cons_self t ts)) hru
    cases r₁ with
    | error e =>
      simp only [Prod.mk.injEq] at h
      rw [← h.1]
      exact hw1
    | ok t' =>
      dsimp only at h
      rcases hup : updatePhase w db₁ ts with ⟨db₂, c₂, r₂⟩
      rw [hup] at h
      have hw2 := ih hw1 (fun g hg => hm g (List.mem_cons_of_mem t hg)) hup
      cases r₂ with
      | error e =>
        simp only [Prod.mk.injEq] at h
        rw [← h.1]
        exact hw2
      | ok ts₂ =>
        simp only [Prod.mk.injEq] at h
        rw [← h.1]
        exact hw2

/-- C7: after a completed run every remaining cache row of either table
carries the name of one of the run's resolved targets, and a run that
resolves zero targets empties the cache. -/
theorem c7_stale_cleanup {w : World} {cfg : Config} {db db' : DB} {cmds : List Cmd}
    {ts : List RoseArchTarget} {n : Nat}
    (h : runArch w cfg db = (db', cmds, .ok (ts, n))) :
    dbNamesWithin db' (ts.map (fun t => t.name)) ∧
      (ts = [] → db' = emptyDB) := by
  rcases runArch_ok_parts h with ⟨fs, -, hup, -⟩
  have hnames : ts.map (fun t => t.name) =
      (List.insertionSort nameLe (cacheFold db (fs.map (fun p => p.2))).2).map
        (fun t => t.name) := updatePhase_names hup
  have hw0 : dbNamesWithin
      (dbDeleteAll (cacheFold db (fs.map (fun p => p.2))).1
        ((List.insertionSort nameLe (cacheFold db (fs.map (fun p => p.2))).2).map
          (fun t => t.name)))
      (ts.map (fun t => t.name)) := by
    rw [hnames]
    exact dbDeleteAll_within _ _
  have hmem : ∀ t ∈ List.insertionSort nameLe (cacheFold db (fs.map (fun p => p.2))).2,
      t.name ∈ ts.map (fun t => t.name) := by
    intro t ht
    rw [hnames]
    exact List.mem_map.mpr ⟨t, ht, rfl⟩
  refine ⟨updatePhase_within hw0 hmem hup, ?_⟩
  intro hts
  rw [hts] at hnames
  have hsorted : List.insertionSort nameLe (cacheFold db (fs.map (fun p => p.2))).2 = [] :=
    List.map_eq_nil_iff.mp hnames.symm
  rw [hsorted] at hup
  unfold updatePhase at hup
  simp only [Prod.mk.injEq] at hup
  rw [← hup.1]
  rfl

/-- Witness for the stale-cleanup theorem: a run over a cache seeded with a
stale `stale.tar` row ends with rows for the resolved `t.tar` only. -/
theorem c7_witness :
    dbNamesWithin dbDemo1 ([tC8ok].map (fun t => t.name)) ∧
      ([tC8ok] = ([] : List RoseArchTarget) → dbDemo1 = emptyDB) :=
  @c7_stale_cleanup wDemo cfgDemo dbStale dbDemo1 [Cmd.archive "cp s.txt t.tar"]
    [tC8ok] 0 (by decide)

/-- C8 (amended): the execution branch first writes a provisional cache row
whose `command_rc` carries the sentinel value `1` — not `0` — and after a
completed execution the row persists with `command_rc` rewritten to the
archive command's exit code, `0` exactly when the command succeeded. -/
theorem c8_provisional_row {w : World} {db db' : DB} {t t' : RoseArchTarget}
    {cmds : List Cmd} (hnn : dbNoName db t.name) (hs : srcKeysSorted t.sources)
    (h : execPending w db t = (db', cmds, .ok t')) :
    (∃ dbA, dbInsert db { t with commandRc := 1 } = .ok dbA ∧ db' = dbUpdateRc dbA t') ∧
    selectDB db' t.name = some (cachedOf { t with commandRc := t'.commandRc }) ∧
    ((t'.status = some ArchStatus.new ∧ t'.commandRc = 0) ∨
      (t'.status = some ArchStatus.bad ∧ ¬ t'.commandRc = 0)) := by
  rcases execPending_ok h with ⟨dbA, hins, -, hdb, -, hstat⟩
  exact ⟨⟨dbA, hins, hdb⟩, execPending_sel h hnn hs, hstat⟩

/-- Witness for the provisional-row theorem at the `cfgDemo` target executed
against an empty cache. -/
theorem c8_witness :
    ((∃ dbA, dbInsert emptyDB { tC8 with commandRc := 1 } = .ok dbA ∧
        dbDemo1 = dbUpdateRc dbA tC8ok) ∧
      selectDB dbDemo1 tC8.name = some (cachedOf { tC8 with commandRc := tC8ok.commandRc }) ∧
      ((tC8ok.status = some ArchStatus.new ∧ tC8ok.commandRc = 0) ∨
        (tC8ok.status = some ArchStatus.bad ∧ ¬ tC8ok.commandRc = 0))) :=
  @c8_provisional_row wDemo emptyDB dbDemo1 tC8 tC8ok [Cmd.archive "cp s.txt t.tar"]
    (by simp [dbNoName, emptyDB]) (by simp [srcKeysSorted, tC8]) (by decide)

/-- Counterexample to the frozen sentinel claim: under `wEditFail` the staged
edit command fails after the provisional row was inserted; the surviving row
carries `command_rc = 1`, not the claimed pre-execution sentinel `0`. -/
theorem c8_counterexample :
    (runArch wEditFail cfgC8 emptyDB).2.2 = .error Err.popen ∧
    (runArch wEditFail cfgC8 emptyDB).1.targets.map (fun r => r.commandRc) = [1] ∧
    (runArch wEditFail cfgC8 emptyDB).2.1 = [Cmd.edit "ed s.txt work/s.txt"] := by decide

/-- C9 (amended): with `ROSE_SUITE_NAME` unset or empty the run resolves and
executes nothing and returns `None` — but the cache store file exists
afterwards even when it did not before, because the DAO constructor creates
it before the suite name is consulted. -/
theorem c9_no_suite_name (w : World) (cfg : Config) (fsDb : Option DB)
    (h : truthyO w.suiteName = false) :
    appRun w cfg fsDb =
      (some (match fsDb with | some d => d | none => emptyDB), [], .ok none) := by
  unfold appRun
  rw [h]
  rfl

/-- Witness for the no-suite-name theorem at an existing seeded cache. -/
theorem c9_witness :
    truthyO wNoSuite.suiteName = false ∧
    appRun wNoSuite cfgDemo (some dbSeed) = (some dbSeed, [], .ok none) :=
  ⟨by decide, c9_no_suite_name wNoSuite cfgDemo (some dbSeed) (by decide)⟩

/-- Counterexample to the frozen no-op claim: with no suite name and no
existing cache file, the run still leaves a freshly created empty cache file
behind — the first component is `some`, not `none`. -/
theorem c9_counterexample :
    wNoSuite.suiteName = none ∧
    appRun wNoSuite cfgDemo none = (some emptyDB, [], .ok none) ∧
    ¬ (appRun wNoSuite cfgDemo none).1 = none := by decide

end RoseArch

namespace RosePrune

/-- C10: for every suite directory and non-empty glob list, `%`-substitution
into the pruning command template raises `ValueError` on the trailing `%(g)`
placeholder, which lacks its `s` conversion character, so no shell command
whose `rm -rf` part contains the glob list is produced. -/
theorem c10_prune_template_defect (d : String) (gs : List String) (_h : ¬ gs = []) :
    shCmd d gs = .error RoseArch.FmtErr.valueErr := rfl

/-- Witness for the pruning-template theorem at a concrete glob list. -/
theorem c10_witness :
    ¬ (["[a-z]*"] : List String) = [] ∧
    shCmd "suite/dir" ["[a-z]*"] = .error RoseArch.FmtErr.valueErr :=
  ⟨by decide, c10_prune_template_defect "suite/dir" ["[a-z]*"] (by decide)⟩

end RosePrune
